import Mathlib

/-!
# multisum: checksum manifests for a directory tree

A shallow embedding of the Go sources `main.go`, `checksum.go`, `scanner.go` and `stats.go`.

Modelling conventions.

* A slash separated, cleaned path is the list of its components (`Path`); the path `"."` is
  the empty list and `path.Join` is concatenation.
* The file system is one tree (`FS`), addressed by absolute paths.  The order of the entries
  of a directory is the order in which `ReadDir` lists them.
* Go byte strings (`string`, `[]byte`) are `String`; a digest is a list of byte values.
* Failures of the operating system are injected through an oracle (`Faults`).
* `fs.WalkDir` walks the tree found at its root when the walk starts.
* `bufio.Writer` is a buffer that is written out by `Flush` only.
* Goroutines are not modelled: `StartScan` is the scan it starts, and the cancellation of the
  context is an oracle on the calls of `ctx.Err()`.  The progress display of `stats.go`
  redraws one line: `PrintStats` is the text of that line, with the `float32` arithmetic
  given by its special values and a rounding function (`FloatLib`).
-/

namespace Multisum

/-! ## Paths -/

/-- A cleaned path, as the list of its components. -/
abbrev Path := List String

/-- Go `path.Join` on cleaned paths. -/
def pathJoin (a b : Path) : Path := a ++ b

/-- Go `path.Base`: the last element of the path, `"."` for the empty path. -/
def pathBase (p : Path) : String := p.getLast?.getD "."

/-- The textual form of a relative path, as `fs.WalkDir` hands it to its callback. -/
def pathString (p : Path) : String :=
  match p with
  | [] => "."
  | _ => String.intercalate "/" p

/-! ## Errors -/

/-- Go `error` values that occur in the program. -/
inductive Err
  | SkipDir
  | SkipAll
  | Canceled
  | os (op : String) (path : Path)
  | new (msg : String)
  | wrap (msg : String) (cause : Err)
deriving DecidableEq, Repr

/-! ## The file system -/

/-- The type bits of a non-directory entry. -/
inductive FileKind
  | regular
  | symlink
  | irregular
deriving DecidableEq, Repr

mutual
/-- A node of the file system tree.  The content of an entry that is not a regular file is
what is read and written through it (for a symbolic link, the content of the file it leads
to). -/
inductive Node
  | file (kind : FileKind) (content : String)
  | dir (entries : Entries)
/-- The entries of a directory, in `ReadDir` order. -/
inductive Entries
  | nil
  | cons (name : String) (node : Node) (rest : Entries)
end

/-- The whole file system: the entries of its root directory. -/
abbrev FS := Entries

/-- Whether the node is a directory. -/
def Node.isDir : Node → Bool
  | .dir _ => true
  | .file _ _ => false

/-- The names of the entries of a directory. -/
def Entries.names : Entries → List String
  | .nil => []
  | .cons n _ rest => n :: rest.names

/-- The entries of a directory as a list of named nodes. -/
def Entries.toList : Entries → List (String × Node)
  | .nil => []
  | .cons n d rest => (n, d) :: rest.toList

/-- The first entry with the given name. -/
def Entries.find (n : String) : Entries → Option Node
  | .nil => none
  | .cons m d rest => if m = n then some d else rest.find n

/-- Remove the first entry with the given name. -/
def Entries.erase (n : String) : Entries → Entries
  | .nil => .nil
  | .cons m d rest => if m = n then rest else .cons m d (rest.erase n)

/-- Replace the first entry with the given name, or add the entry at the end. -/
def Entries.put (n : String) (x : Node) : Entries → Entries
  | .nil => .cons n x .nil
  | .cons m d rest => if m = n then .cons m x rest else .cons m d (rest.put n x)

/-- Apply `g` to the first entry with the given name. -/
def Entries.modify (n : String) (g : Node → Node) : Entries → Entries
  | .nil => .nil
  | .cons m d rest => if m = n then .cons m (g d) rest else .cons m d (rest.modify n g)

/-- Append bytes to a non-directory node. -/
def Node.append (s : String) : Node → Node
  | .file k c => .file k (c ++ s)
  | .dir es => .dir es

mutual
/-- Names are distinct within every directory below the node. -/
def Node.wf : Node → Bool
  | .file _ _ => true
  | .dir es => es.wf
/-- Names are distinct within the directory and within every directory below it. -/
def Entries.wf : Entries → Bool
  | .nil => true
  | .cons n d rest => decide (n ∉ rest.names) && d.wf && rest.wf
end

/-- The node at a path (`os.Stat` without following links). -/
def lookup : Path → Entries → Option Node
  | [], es => some (.dir es)
  | n :: p, es =>
    match es.find n with
    | some (.dir sub) => lookup p sub
    | some (.file k c) => if p = [] then some (.file k c) else none
    | none => none

/-- Apply `g` to the entries of the directory at a path; nothing happens when the path is not
a directory. -/
def modifyDir : Path → (Entries → Entries) → Entries → Entries
  | [], g, es => g es
  | n :: p, g, es =>
    es.modify n (fun d =>
      match d with
      | .dir sub => .dir (modifyDir p g sub)
      | .file k c => .file k c)

/-- Failures of the operating system, by operation and absolute path. -/
structure Faults where
  openFails : Path → Bool
  createFails : Path → Bool
  writeFails : Path → String → Bool
  flushFails : Path → Bool
  closeFails : Path → Bool
  removeFails : Path → Bool

/-- The environment in which no operation fails. -/
def noFaults : Faults :=
  { openFails := fun _ => false
    createFails := fun _ => false
    writeFails := fun _ _ => false
    flushFails := fun _ => false
    closeFails := fun _ => false
    removeFails := fun _ => false }

/-- Go `os.DirFS(p)`: the tree below `p`, if there is one. -/
def osDirFS (fs : FS) (p : Path) : Option Node := lookup p fs

/-- Go `os.Open` followed by reading the whole file. -/
def osReadFile (F : Faults) (p : Path) (fs : FS) : Except Err String :=
  if F.openFails p then .error (.os "open" p)
  else
    match lookup p fs with
    | some (.file _ c) => .ok c
    | _ => .error (.os "open" p)

/-- Go `os.Create`: an existing entry that is not a directory is opened and truncated, and
keeps its type (a symbolic link is followed, not replaced); a missing entry is created as an
empty regular file.  It fails on a directory and when the parent directory is missing. -/
def osCreate (F : Faults) (p : Path) (fs : FS) : Option Err × FS :=
  if F.createFails p then (some (.os "create" p), fs)
  else
    match p.getLast?, lookup p.dropLast fs, lookup p fs with
    | some n, some (.dir _), some (.file k _) =>
      (none, modifyDir p.dropLast (Entries.put n (.file k "")) fs)
    | some n, some (.dir _), none =>
      (none, modifyDir p.dropLast (Entries.put n (.file .regular "")) fs)
    | _, _, _ => (some (.os "create" p), fs)

/-- Writing bytes through an open file: they are appended to the file at the path. -/
def osWrite (p : Path) (s : String) (fs : FS) : FS :=
  match p.getLast? with
  | some n => modifyDir p.dropLast (Entries.modify n (Node.append s)) fs
  | none => fs

/-- Go `os.Remove` and `os.RemoveAll`: the entry at the path is removed, with all below it.
The program calls `os.Remove` on entries that are not directories only. -/
def osRemove (F : Faults) (p : Path) (fs : FS) : Option Err × FS :=
  if F.removeFails p then (some (.os "remove" p), fs)
  else
    match p.getLast? with
    | some n => (none, modifyDir p.dropLast (Entries.erase n) fs)
    | none => (none, fs)

/-! ## `io/fs.WalkDir` -/

/-- Go `fs.DirEntry`, as far as the program reads it. -/
structure DirEntry where
  Name : String
  IsDir : Bool
  IsRegular : Bool
deriving DecidableEq, Repr

/-- The directory entry of a node. -/
def Node.entry (nm : String) : Node → DirEntry
  | .file k _ => { Name := nm, IsDir := false, IsRegular := decide (k = .regular) }
  | .dir _ => { Name := nm, IsDir := true, IsRegular := false }

/-- Go `fs.WalkDirFunc`, with the state the callback works on passed explicitly. -/
abbrev WalkDirFunc (σ : Type) := Path → DirEntry → Option Err → σ → Option Err × σ

mutual
/-- Go `fs.walkDir`. -/
def walkDir {σ : Type} (fn : WalkDirFunc σ) (name : Path) (nm : String) (d : Node) (s : σ) :
    Option Err × σ :=
  match d with
  | .file k c => fn name ((Node.file k c).entry nm) none s
  | .dir es =>
    match fn name ((Node.dir es).entry nm) none s with
    | (some e, s1) => if e = Err.SkipDir then (none, s1) else (some e, s1)
    | (none, s1) => walkEntries fn name es s1
/-- The loop of `fs.walkDir` over the entries of a directory. -/
def walkEntries {σ : Type} (fn : WalkDirFunc σ) (name : Path) (es : Entries) (s : σ) :
    Option Err × σ :=
  match es with
  | .nil => (none, s)
  | .cons nm d rest =>
    match walkDir fn (pathJoin name [nm]) nm d s with
    | (some e, s1) => if e = Err.SkipDir then (none, s1) else (some e, s1)
    | (none, s1) => walkEntries fn name rest s1
end

/-- Go `fs.WalkDir(fsys, ".", fn)`. -/
def WalkDir {σ : Type} (fsys : Option Node) (fn : WalkDirFunc σ) (s : σ) : Option Err × σ :=
  let r :=
    match fsys with
    | none => fn [] { Name := ".", IsDir := false, IsRegular := false } (some (.os "stat" [])) s
    | some d => walkDir fn [] "." d s
  match r with
  | (some e, s1) => if e = Err.SkipDir ∨ e = Err.SkipAll then (none, s1) else (some e, s1)
  | (none, s1) => (none, s1)

/-! ## `main.go`: options and configuration -/

/-- The print mode of the checksum lines. -/
inductive printMode
  | ModeText
  | ModeBinary
deriving DecidableEq, Repr

/-- Go `crypto.Hash`, an unsigned integer. -/
abbrev cryptoHash := Nat

/-- The value `crypto.MD5`. -/
def cryptoMD5 : cryptoHash := 2

/-- The value `crypto.SHA1`. -/
def cryptoSHA1 : cryptoHash := 3

/-- The value `crypto.SHA256`. -/
def cryptoSHA256 : cryptoHash := 5

/-- The value `crypto.SHA512`. -/
def cryptoSHA512 : cryptoHash := 7

/-- The command line options. -/
structure options where
  printTextMode : Bool
  printBinaryMode : Bool
  useMD5 : Bool
  useSha1 : Bool
  useSha256 : Bool
  useSha512 : Bool
  sourceDirectoryPath : Path
  targetDirectoryPath : Path
deriving DecidableEq, Repr

/-- The configuration of a run. -/
structure ChecksumCalculatorConfig where
  mode : printMode
  hashes : List cryptoHash
  sourceDirectoryPath : Path
  targetDirectoryPath : Path
deriving DecidableEq, Repr

/-- The function `setDefaultOptions`. -/
def setDefaultOptions (o : options) : options :=
  if !o.printBinaryMode && !o.printTextMode then { o with printBinaryMode := true } else o

/-- The function `validateOptions`: `none` when the options are accepted, the message of
`log.Fatalf` when the process is ended. -/
def validateOptions (o : options) : Option String :=
  if o.printBinaryMode && o.printTextMode then
    some "invalid arguments: --binary and --text are mutually exclusive"
  else
    let hasHash := o.useMD5 || o.useSha256 || o.useSha512
    if !hasHash then some "invalid arguments: must use at least one hash flag" else none

/-- The function `createConfig`. -/
def createConfig (o : options) : ChecksumCalculatorConfig :=
  let mode := if o.printTextMode then printMode.ModeText else printMode.ModeBinary
  let hashes : List cryptoHash := []
  let hashes := if o.useMD5 then hashes ++ [cryptoMD5] else hashes
  let hashes := if o.useSha1 then hashes ++ [cryptoSHA1] else hashes
  let hashes := if o.useSha256 then hashes ++ [cryptoSHA256] else hashes
  let hashes := if o.useSha512 then hashes ++ [cryptoSHA512] else hashes
  { mode := mode
    hashes := hashes
    sourceDirectoryPath := o.sourceDirectoryPath
    targetDirectoryPath := o.targetDirectoryPath }

/-! ## Hashes and checksum writers -/

/-- Go `hash.Hash`: the digest function of the algorithm, the bytes written since the last
`Reset`, and the name `%T` prints for the implementation. -/
structure Hash where
  typeName : String
  digest : String → List Nat
  data : String

/-- Go `Hash.Write`. -/
def Hash.Write (h : Hash) (p : String) : Hash := { h with data := h.data ++ p }

/-- Go `Hash.Sum(nil)`. -/
def Hash.Sum (h : Hash) : List Nat := h.digest h.data

/-- Go `Hash.Reset`. -/
def Hash.Reset (h : Hash) : Hash := { h with data := "" }

/-- The digest functions of the Go packages `crypto/md5`, `crypto/sha1`, `crypto/sha256` and
`crypto/sha512`. -/
structure CryptoLib where
  md5 : String → List Nat
  sha1 : String → List Nat
  sha256 : String → List Nat
  sha512 : String → List Nat

/-- Modelled from the spec: the type name of the value `md5.New()` returns, a declaration of
the Go library. -/
def md5New (L : CryptoLib) : Hash := { typeName := "*md5.digest", digest := L.md5, data := "" }

/-- Modelled from the spec: the type name of the value `sha1.New()` returns, a declaration of
the Go library. -/
def sha1New (L : CryptoLib) : Hash := { typeName := "*sha1.digest", digest := L.sha1, data := "" }

/-- Modelled from the spec: the type name of the value `sha256.New()` returns, a declaration
of the Go library. -/
def sha256New (L : CryptoLib) : Hash :=
  { typeName := "*sha256.digest", digest := L.sha256, data := "" }

/-- Modelled from the spec: the type name of the value `sha512.New()` returns, a declaration
of the Go library. -/
def sha512New (L : CryptoLib) : Hash :=
  { typeName := "*sha512.digest", digest := L.sha512, data := "" }

/-- Go `strings.TrimPrefix(s, "*")`. -/
def trimStar (s : List Char) : List Char :=
  match s with
  | '*' :: rest => rest
  | _ => s

/-- Go `strings.Split(s, ".")[0]`: the part of `s` before the first dot. -/
def firstField (s : List Char) : List Char := s.takeWhile (fun c => c != '.')

/-- Go `strings.ToUpper`, on ASCII strings. -/
def toUpper (s : List Char) : List Char := s.map Char.toUpper

/-- One digit of the verb `%x`. -/
def hexDigit (n : Nat) : Char := "0123456789abcdef".toList.getD n '0'

/-- The verb `%x` on a byte slice: two lowercase digits for each byte. -/
def hex (bs : List Nat) : String :=
  String.mk (bs.flatMap (fun b => [hexDigit (b / 16 % 16), hexDigit (b % 16)]))

/-- The type `checksumWriter`.  The field `writer` holds the bytes buffered by the
`bufio.Writer`; `closeCalls` is a ghost field that counts the invocations of `Close`. -/
structure checksumWriter where
  hash : Hash
  filename : Path
  writer : String
  closeCalls : Nat

/-- The function `newChecksumWriter`. -/
def newChecksumWriter (repoPath : Path) (h : Hash) : checksumWriter :=
  let rawName := h.typeName
  let hashName := firstField (trimStar rawName.toList)
  let filename := pathJoin repoPath [String.mk (toUpper hashName) ++ "SUMS"]
  { hash := h, filename := filename, writer := "", closeCalls := 0 }

/-- The method `checksumWriter.Open`. -/
def checksumWriter.Open (F : Faults) (w : checksumWriter) (fs : FS) :
    Option Err × checksumWriter × FS :=
  match osCreate F w.filename fs with
  | (some e, fs1) => (some e, w, fs1)
  | (none, fs1) => (none, { w with writer := "" }, fs1)

/-- The line `fmt.Appendf(nil, "%x *%s\n", sum, filePath)`. -/
def checksumLine (sum : List Nat) (filePath : String) : String :=
  hex sum ++ " *" ++ filePath ++ "\n"

/-- The method `checksumWriter.WriteChecksum`. -/
def checksumWriter.WriteChecksum (F : Faults) (w : checksumWriter) (filePath : String) :
    Option Err × checksumWriter :=
  if F.writeFails w.filename filePath then (some (.os "write" w.filename), w)
  else
    let w1 := { w with writer := w.writer ++ checksumLine w.hash.Sum filePath }
    (none, { w1 with hash := w1.hash.Reset })

/-- The method `checksumWriter.Close`. -/
def checksumWriter.Close (F : Faults) (w : checksumWriter) (fs : FS) :
    Option Err × checksumWriter × FS :=
  let w := { w with closeCalls := w.closeCalls + 1 }
  if F.flushFails w.filename then (some (.os "write" w.filename), w, fs)
  else
    let fs1 := osWrite w.filename w.writer fs
    let w1 := { w with writer := "" }
    if F.closeFails w.filename then (some (.os "close" w.filename), w1, fs1)
    else (none, w1, fs1)

/-! ## `checksum.go`: the calculator -/

/-- The loop of `createWriters` over the requested hashes. -/
def createWritersLoop (L : CryptoLib) (repoPath : Path) :
    List cryptoHash → List checksumWriter → Except Err (List checksumWriter)
  | [], checksumWriters => .ok checksumWriters
  | h :: rest, checksumWriters =>
    if h = cryptoMD5 then
      createWritersLoop L repoPath rest (checksumWriters ++ [newChecksumWriter repoPath (md5New L)])
    else if h = cryptoSHA1 then
      createWritersLoop L repoPath rest (checksumWriters ++ [newChecksumWriter repoPath (sha1New L)])
    else if h = cryptoSHA256 then
      createWritersLoop L repoPath rest
        (checksumWriters ++ [newChecksumWriter repoPath (sha256New L)])
    else if h = cryptoSHA512 then
      createWritersLoop L repoPath rest
        (checksumWriters ++ [newChecksumWriter repoPath (sha512New L)])
    else .error (.new "unknown hash value")

/-- The method `createWriters`. -/
def createWriters (L : CryptoLib) (cfg : ChecksumCalculatorConfig) :
    Except Err (List checksumWriter) :=
  createWritersLoop L cfg.targetDirectoryPath cfg.hashes []

/-- The first loop of `calcChecksums`: open the writers, stopping at the first failure. -/
def openWriters (F : Faults) : List checksumWriter → FS → Option Err × List checksumWriter × FS
  | [], fs => (none, [], fs)
  | w :: rest, fs =>
    match w.Open F fs with
    | (some e, w1, fs1) => (some (.wrap "failed to open checksum writer" e), w1 :: rest, fs1)
    | (none, w1, fs1) =>
      match openWriters F rest fs1 with
      | (r, rest1, fs2) => (r, w1 :: rest1, fs2)

/-- The method `checksumFile`: the content of the file is written to every hash. -/
def checksumFile (F : Faults) (path : Path) (fs : FS) (ws : List checksumWriter) :
    Option Err × List checksumWriter :=
  match osReadFile F path fs with
  | .error e => (some e, ws)
  | .ok c => (none, ws.map (fun w => { w with hash := w.hash.Write c }))

/-- The loop over the writers in the callback of `calcChecksums`, stopping at the first
failure. -/
def writeChecksums (F : Faults) (localPath : String) :
    List checksumWriter → Option Err × List checksumWriter
  | [] => (none, [])
  | w :: rest =>
    match w.WriteChecksum F localPath with
    | (some e, w1) => (some (.wrap "failed to write checksum with checksum writer" e), w1 :: rest)
    | (none, w1) =>
      match writeChecksums F localPath rest with
      | (r, rest1) => (r, w1 :: rest1)

/-- The callback `calcChecksums` passes to `fs.WalkDir`.  The state is the list of writers;
the progress counter the callback increments is not part of it. -/
def calcChecksumsFn (F : Faults) (storePath : Path) (fs : FS) :
    WalkDirFunc (List checksumWriter) :=
  fun localPath d err ws =>
    if err.isSome then (some .SkipDir, ws)
    else if d.IsDir then
      if localPath = [] then (none, ws)
      else if localPath = [".git"] then (some .SkipDir, ws)
      else (none, ws)
    else if !d.IsRegular then (none, ws)
    else
      let absolutePath := pathJoin storePath localPath
      match checksumFile F absolutePath fs ws with
      | (some e, ws1) => (some (.wrap "calcChecksums: failed to calculate checksums" e), ws1)
      | (none, ws1) => writeChecksums F (pathString localPath) ws1

/-- The last loop of `calcChecksums`: close the writers, stopping at the first failure. -/
def closeWriters (F : Faults) : List checksumWriter → FS → Option Err × List checksumWriter × FS
  | [], fs => (none, [], fs)
  | w :: rest, fs =>
    match w.Close F fs with
    | (some e, w1, fs1) => (some (.wrap "failed to close checksum writer" e), w1 :: rest, fs1)
    | (none, w1, fs1) =>
      match closeWriters F rest fs1 with
      | (r, rest1, fs2) => (r, w1 :: rest1, fs2)

/-- The method `calcChecksums`. -/
def calcChecksums (F : Faults) (storePath : Path) (checksumWriters : List checksumWriter)
    (fs : FS) : Option Err × List checksumWriter × FS :=
  match openWriters F checksumWriters fs with
  | (some e, ws1, fs1) => (some e, ws1, fs1)
  | (none, ws1, fs1) =>
    match WalkDir (osDirFS fs1 storePath) (calcChecksumsFn F storePath fs1) ws1 with
    | (err, ws2) =>
      match closeWriters F ws2 fs1 with
      | (some e, ws3, fs2) => (some e, ws3, fs2)
      | (none, ws3, fs2) => (err, ws3, fs2)

/-- The callback `ensureIsGitSumRepo` passes to `fs.WalkDir`. -/
def ensureIsGitSumRepoFn (repoPath : Path) : WalkDirFunc Unit :=
  fun localPath d err u =>
    match err with
    | some e => (some (.wrap "ensureIsGitSumRepo: failed to walk directory" e), u)
    | none =>
      if d.IsDir then
        if localPath = [".git"] then (some .SkipDir, u)
        else (none, u)
      else
        if localPath = [".gitattributes"] then (none, u)
        else
          let allowed := ["md5sums", "sha256sums"]
          if !allowed.contains (pathBase (pathJoin repoPath localPath)) then
            (some (.new ("ensureIsGitSumRepo: unexpected file " ++ pathString localPath ++
              " found in repository")), u)
          else (none, u)

/-- The method `ensureIsGitSumRepo`. -/
def ensureIsGitSumRepo (repoPath : Path) (fs : FS) : Option Err :=
  (WalkDir (osDirFS fs repoPath) (ensureIsGitSumRepoFn repoPath) ()).1

/-- The callback `resetChecksums` passes to `fs.WalkDir`. -/
def resetChecksumsFn (F : Faults) (repoPath : Path) : WalkDirFunc FS :=
  fun localPath d err fs =>
    match err with
    | some e => (some (.wrap "resetChecksums: failed to walk directory" e), fs)
    | none =>
      if d.IsDir then
        if localPath = [] then (none, fs)
        else if localPath = [".git"] then (some .SkipDir, fs)
        else
          match osRemove F (pathJoin repoPath localPath) fs with
          | (some e, fs1) => (some (.wrap "resetChecksums: failed to remove directory" e), fs1)
          | (none, fs1) => (some .SkipDir, fs1)
      else if localPath = [".gitattributes"] then (none, fs)
      else
        match osRemove F (pathJoin repoPath localPath) fs with
        | (some e, fs1) => (some (.wrap "resetChecksums: failed to remove file" e), fs1)
        | (none, fs1) => (none, fs1)

/-- The method `resetChecksums`. -/
def resetChecksums (F : Faults) (repoPath : Path) (fs : FS) : Option Err × FS :=
  WalkDir (osDirFS fs repoPath) (resetChecksumsFn F repoPath) fs

/-- The method `Calculate`, as far as it acts on the file system: the scanner and the
progress display it starts read only. -/
def Calculate (F : Faults) (L : CryptoLib) (cfg : ChecksumCalculatorConfig)
    (sourceDirectoryPath : Path) (fs : FS) : Option Err × FS :=
  match ensureIsGitSumRepo cfg.targetDirectoryPath fs with
  | some e => (some e, fs)
  | none =>
    match resetChecksums F cfg.targetDirectoryPath fs with
    | (some e, fs1) => (some e, fs1)
    | (none, fs1) =>
      match createWriters L cfg with
      | .error e => (some (.wrap "failed to create checksum writers" e), fs1)
      | .ok checksumWriters =>
        match calcChecksums F sourceDirectoryPath checksumWriters fs1 with
        | (some e, _, fs2) => (some e, fs2)
        | (none, _, fs2) => (none, fs2)

/-! ## `scanner.go` -/

/-- The type `scanner`: whether `cancel` is set, and the total count. -/
structure scanner where
  cancel : Bool
  totalCount : Int
deriving DecidableEq, Repr

/-- The function `newScanner`. -/
def newScanner : scanner := { cancel := false, totalCount := -1 }

/-- The method `IsScanning`. -/
def scanner.IsScanning (s : scanner) : Bool := s.cancel && s.totalCount == -1

/-- The method `GetTotalCount`. -/
def scanner.GetTotalCount (s : scanner) : Int := s.totalCount

/-- The callback `scan` passes to `fs.WalkDir`.  The state is the counter and the number of
calls of `ctx.Err()` made so far; `ctx k` tells whether the call number `k` of `ctx.Err()`
reports the cancellation. -/
def scanFn (ctx : Nat → Bool) : WalkDirFunc (Int × Nat) :=
  fun localPath d err st =>
    let counter := st.1
    let calls := st.2
    if ctx calls then (some .Canceled, (counter, calls + 1))
    else if err.isSome then (some .SkipDir, (counter, calls + 1))
    else if d.IsDir then
      if localPath = [] then (none, (counter, calls + 1))
      else if localPath = [".git"] then (some .SkipDir, (counter, calls + 1))
      else (none, (counter, calls + 1))
    else if !d.IsRegular then (none, (counter, calls + 1))
    else (none, (counter + 1, calls + 1))

/-- The method `scan`. -/
def scanner.scan (s : scanner) (ctx : Nat → Bool) (storePath : Path) (fs : FS) :
    Option Err × scanner :=
  match WalkDir (osDirFS fs storePath) (scanFn ctx) (0, 0) with
  | (some e, _) => (some e, s)
  | (none, st) => (none, { s with totalCount := st.1 })

/-- The method `StartScan`: the scanner once the scan it starts has returned. -/
def scanner.StartScan (s : scanner) (ctx : Nat → Bool) (storePath : Path) (fs : FS) : scanner :=
  (scanner.scan { s with cancel := true } ctx storePath fs).2

/-! ## `stats.go` -/

/-- A value of the Go type `float32`: a finite value given by its sign and its magnitude, an
infinity with its sign, or NaN. -/
inductive float32
  | finite (neg : Bool) (mag : ℚ)
  | inf (neg : Bool)
  | nan

/-- The rounding of the float32 arithmetic: `round q` is the magnitude of the float32 value
nearest to the exact non-negative result `q`.  Of the rounding it is known that a value with
a significand below `2 ^ 24` and an exponent in the range of float32 is kept, and that a
result of at least one is not rounded below one.  The counts of the program are far from
the overflow threshold of float32. -/
structure FloatLib where
  round : ℚ → ℚ
  round_exact : ∀ (m : ℕ) (k : ℤ), m < 2 ^ 24 → -149 ≤ k → k ≤ 104 →
    round ((m : ℚ) * 2 ^ k) = (m : ℚ) * 2 ^ k
  round_one_le : ∀ q : ℚ, 1 ≤ q → 1 ≤ round q

/-- The conversion `float32(n)` of an integer. -/
def float32.ofInt (lib : FloatLib) (n : Int) : float32 :=
  .finite (decide (n < 0)) (lib.round (n.natAbs : ℚ))

/-- The float32 division. -/
def float32.div (lib : FloatLib) : float32 → float32 → float32
  | .finite s a, .finite t b =>
    if b = 0 then (if a = 0 then .nan else .inf (xor s t))
    else .finite (xor s t) (lib.round (a / b))
  | .finite s _, .inf t => .finite (xor s t) 0
  | .inf s, .finite t _ => .inf (xor s t)
  | .inf _, .inf _ => .nan
  | .nan, _ => .nan
  | _, .nan => .nan

/-- The float32 multiplication. -/
def float32.mul (lib : FloatLib) : float32 → float32 → float32
  | .finite s a, .finite t b => .finite (xor s t) (lib.round (a * b))
  | .finite s a, .inf t => if a = 0 then .nan else .inf (xor s t)
  | .inf s, .finite t b => if b = 0 then .nan else .inf (xor s t)
  | .inf s, .inf t => .inf (xor s t)
  | .nan, _ => .nan
  | _, .nan => .nan

/-- The verb `%d`. -/
def fmtInt (n : Int) : String :=
  if n < 0 then "-" ++ toString n.natAbs else toString n.natAbs

/-- The nearest natural number to a non-negative rational, the even one of two nearest. -/
def roundHalfEven (q : ℚ) : Nat :=
  let f := ⌊q⌋₊
  let r := q - (f : ℚ)
  if r < 1 / 2 then f
  else if 1 / 2 < r then f + 1
  else if f % 2 = 0 then f else f + 1

/-- A decimal digit. -/
def decimalDigit (n : Nat) : Char := Char.ofNat (48 + n % 10)

/-- The verb `%.2f`: the exact value rounded to two decimals, the even one of two nearest. -/
def fmt2f : float32 → String
  | .nan => "NaN"
  | .inf false => "+Inf"
  | .inf true => "-Inf"
  | .finite s a =>
    let n := roundHalfEven (a * 100)
    (if s then "-" else "") ++ toString (n / 100) ++ "." ++
      String.mk [decimalDigit (n / 10), decimalDigit n]

/-- The interface `totalCountScanner`: the answers of its two methods. -/
structure totalCountScanner where
  IsScanning : Bool
  GetTotalCount : Int

/-- A `scanner` as a `totalCountScanner`. -/
def scanner.asTotalCountScanner (s : scanner) : totalCountScanner :=
  { IsScanning := s.IsScanning, GetTotalCount := s.GetTotalCount }

/-- The type `stats`: the processed count and the scanner. -/
structure stats where
  actualCount : Int
  scanner : totalCountScanner

/-- The percentage `100.0 / float32(total) * float32(actualCount)` of `PrintStats`. -/
def percentage (lib : FloatLib) (total actualCount : Int) : float32 :=
  float32.mul lib (float32.div lib (.finite false 100) (float32.ofInt lib total))
    (float32.ofInt lib actualCount)

/-- The method `PrintStats`: the text it hands to the logger. -/
def stats.PrintStats (lib : FloatLib) (s : stats) : String :=
  let actualCount := s.actualCount
  if s.scanner.IsScanning then
    "\x1b[1A\x1b[Kstatus: " ++ fmtInt actualCount ++ "/?, scan in progress..."
  else
    let percentage := percentage lib s.scanner.GetTotalCount actualCount
    "\x1b[1A\x1b[Kstatus: " ++ fmtInt actualCount ++ "/" ++ fmtInt s.scanner.GetTotalCount ++
      " (" ++ fmt2f percentage ++ "%)"

/-! ## Functions of the specification -/

/-- The name of the manifest of an algorithm: the algorithm in upper case, then `SUMS`. -/
def manifestName (h : cryptoHash) : String :=
  if h = cryptoMD5 then "MD5SUMS"
  else if h = cryptoSHA1 then "SHA1SUMS"
  else if h = cryptoSHA256 then "SHA256SUMS"
  else "SHA512SUMS"

/-- The digest function of an algorithm. -/
def digestOf (L : CryptoLib) (h : cryptoHash) : String → List Nat :=
  if h = cryptoMD5 then L.md5
  else if h = cryptoSHA1 then L.sha1
  else if h = cryptoSHA256 then L.sha256
  else L.sha512

/-- The algorithms the program knows. -/
def supported (h : cryptoHash) : Prop :=
  h = cryptoMD5 ∨ h = cryptoSHA1 ∨ h = cryptoSHA256 ∨ h = cryptoSHA512

/-- Whether a file name is the name of a manifest: `<ALGO>SUMS` for one of the four
algorithms, or one of the two lower-case names `md5sums` and `sha256sums`. -/
def isManifestName (n : String) : Bool :=
  ["MD5SUMS", "SHA1SUMS", "SHA256SUMS", "SHA512SUMS", "md5sums", "sha256sums"].contains n

/-- Whether a top-level entry of the target directory is protected: it is the directory
`.git` or the file `.gitattributes`. -/
def isProtected (n : String) (d : Node) : Bool :=
  (n == ".git" && d.isDir) || (n == ".gitattributes" && !d.isDir)

/-- The protected entries of a directory. -/
def Entries.protectedOnly : Entries → Entries
  | .nil => .nil
  | .cons n d rest =>
    if isProtected n d then .cons n d rest.protectedOnly else rest.protectedOnly

instance supportedDecidable (h : cryptoHash) : Decidable (supported h) :=
  inferInstanceAs (Decidable (h = cryptoMD5 ∨ h = cryptoSHA1 ∨ h = cryptoSHA256 ∨ h = cryptoSHA512))

mutual
/-- The regular files at and below a node whose path is `pre`, with their paths and contents,
in the order of the walk. -/
def Node.regularFiles (pre : Path) : Node → List (Path × String)
  | .file k c => if k = .regular then [(pre, c)] else []
  | .dir es => es.regularFiles pre
/-- The regular files below a directory whose path is `pre`. -/
def Entries.regularFiles (pre : Path) : Entries → List (Path × String)
  | .nil => []
  | .cons n d rest => d.regularFiles (pre ++ [n]) ++ rest.regularFiles pre
end

/-- The regular files of a source tree, with their paths relative to the root of the tree
and their contents, in the order of the walk; the content of the top-level directory `.git`
is left out. -/
def regularFilesOutsideGit : Entries → List (Path × String)
  | .nil => []
  | .cons n d rest =>
    (if n = ".git" ∧ d.isDir = true then [] else d.regularFiles [n]) ++ regularFilesOutsideGit rest

mutual
/-- The number of entries at and below a node. -/
def Node.visits : Node → Nat
  | .file _ _ => 1
  | .dir es => 1 + es.visits
/-- The number of entries below a directory. -/
def Entries.visits : Entries → Nat
  | .nil => 0
  | .cons _ d rest => d.visits + rest.visits
end

/-- The number of entries of a source tree a complete walk visits below the root: the
top-level directory `.git` is visited, the entries below it are not. -/
def visitsOutsideGit : Entries → Nat
  | .nil => 0
  | .cons n d rest =>
    (if n = ".git" ∧ d.isDir = true then 1 else d.visits) + visitsOutsideGit rest

/-- The lines of the manifest of a digest function for a list of files: for each file, in
order, the digest of the content of that file in lowercase hexadecimal, a space, the marker
`*`, the path of the file and a line feed. -/
def manifestLines (digest : String → List Nat) (files : List (Path × String)) : List String :=
  files.map (fun f => hex (digest f.2) ++ " *" ++ pathString f.1 ++ "\n")

/-- The concatenation of a list of lines. -/
def concatLines : List String → String
  | [] => ""
  | l :: ls => l ++ concatLines ls

/-! ## Auxiliary functions of the proofs -/

/-- The names of the entries of a directory that are not protected. -/
def Entries.removed : Entries → List String
  | .nil => []
  | .cons n d rest => if isProtected n d then rest.removed else n :: rest.removed

/-- The writer `createWriters` makes for a supported algorithm. -/
def writerFor (L : CryptoLib) (repoPath : Path) (h : cryptoHash) : checksumWriter :=
  if h = cryptoMD5 then newChecksumWriter repoPath (md5New L)
  else if h = cryptoSHA1 then newChecksumWriter repoPath (sha1New L)
  else if h = cryptoSHA256 then newChecksumWriter repoPath (sha256New L)
  else newChecksumWriter repoPath (sha512New L)

/-- The writer after the line of a file with content `c` and path `p` has been buffered. -/
def addLine (c : String) (p : String) (w : checksumWriter) : checksumWriter :=
  { w with writer := w.writer ++ checksumLine (w.hash.digest c) p }

/-- The writer after the lines of a list of files have been buffered. -/
def addLines (files : List (Path × String)) (w : checksumWriter) : checksumWriter :=
  files.foldl (fun w f => addLine f.2 (pathString f.1) w) w

/-- The type of the entry `os.Create` leaves at a path: the type of the entry that was
there, a regular file when there was none. -/
def createdKind : Option Node → FileKind
  | some (.file k _) => k
  | _ => .regular

/-- The writer after a successful `Close`. -/
def closed (w : checksumWriter) : checksumWriter :=
  { w with writer := "", closeCalls := w.closeCalls + 1 }

/-! ## Example inputs -/

/-- A stand-in for the digest functions: the bytes of the input, each reduced modulo 256. -/
def toyDigest (s : String) : List Nat := s.toList.map (fun c => c.toNat % 256)

/-- A library of stand-in digest functions, different for each algorithm. -/
def toyLib : CryptoLib :=
  { md5 := toyDigest
    sha1 := fun s => (toyDigest s).reverse
    sha256 := fun s => toyDigest s ++ [0]
    sha512 := fun s => toyDigest s ++ [255] }

/-- A file system with a source directory `store` and an empty target directory `repo`. -/
def exampleFS : FS :=
  .cons "store"
    (.dir
      (.cons ".git" (.dir (.cons "config" (.file .regular "x") .nil))
      (.cons "a.txt" (.file .regular "hello")
      (.cons "link" (.file .symlink "")
      (.cons "sub" (.dir (.cons "b.txt" (.file .regular "world") .nil))
      .nil)))))
  (.cons "repo" (.dir .nil) .nil)

/-- Options that select SHA1 only, with the default print mode. -/
def sha1Options : options :=
  { printTextMode := false
    printBinaryMode := true
    useMD5 := false
    useSha1 := true
    useSha256 := false
    useSha512 := false
    sourceDirectoryPath := ["store"]
    targetDirectoryPath := ["repo"] }

/-- Options that select MD5 and the text mode. -/
def textOptions : options :=
  { printTextMode := true
    printBinaryMode := false
    useMD5 := true
    useSha1 := false
    useSha256 := false
    useSha512 := false
    sourceDirectoryPath := ["store"]
    targetDirectoryPath := ["repo"] }

/-- Options that select MD5 and SHA256 in binary mode. -/
def twoHashOptions : options :=
  { printTextMode := false
    printBinaryMode := true
    useMD5 := true
    useSha1 := false
    useSha256 := true
    useSha512 := false
    sourceDirectoryPath := ["store"]
    targetDirectoryPath := ["repo"] }

/-- The target directory after a run with `twoHashOptions` on `exampleFS`. -/
def rerunFS : FS :=
  .cons "store"
    (.dir
      (.cons ".git" (.dir (.cons "config" (.file .regular "x") .nil))
      (.cons "a.txt" (.file .regular "hello")
      (.cons "link" (.file .symlink "")
      (.cons "sub" (.dir (.cons "b.txt" (.file .regular "world") .nil))
      .nil)))))
  (.cons "repo"
    (.dir
      (.cons "MD5SUMS" (.file .regular "68656c6c6f *a.txt\n776f726c64 *sub/b.txt\n")
      (.cons "SHA256SUMS" (.file .regular "68656c6c6f00 *a.txt\n776f726c6400 *sub/b.txt\n")
      .nil)))
  .nil)

/-- An environment in which flushing the buffer of `repo/MD5SUMS` fails. -/
def flushFault : Faults :=
  { noFaults with flushFails := fun p => decide (p = ["repo", "MD5SUMS"]) }

/-- Options that select MD5, with the target directory `store/out` inside the source
directory `store`. -/
def nestedOptions : options :=
  { printTextMode := false
    printBinaryMode := true
    useMD5 := true
    useSha1 := false
    useSha256 := false
    useSha512 := false
    sourceDirectoryPath := ["store"]
    targetDirectoryPath := ["store", "out"] }

/-- A source directory `store` with one regular file and the empty directory `out`. -/
def nestedFS : FS :=
  .cons "store" (.dir (.cons "a.txt" (.file .regular "hello") (.cons "out" (.dir .nil) .nil)))
  .nil

/-- A stand-in for the rounding of float32 that rounds nothing; the examples compute with
exact values only. -/
def exactFloatLib : FloatLib :=
  { round := fun q => q
    round_exact := fun _ _ _ _ _ => rfl
    round_one_le := fun _ h => h }

/-- A file system whose source directory `store` is empty. -/
def emptyStoreFS : FS :=
  .cons "store" (.dir .nil) (.cons "repo" (.dir .nil) .nil)

/-- A target directory with a repository, the protected file, a stale manifest and a
directory. -/
def resetFS : FS :=
  .cons "repo"
    (.dir
      (.cons ".git" (.dir (.cons "config" (.file .regular "x") .nil))
      (.cons ".gitattributes" (.file .regular "* text")
      (.cons "MD5SUMS" (.file .regular "00 *a\n")
      (.cons "old" (.dir (.cons ".gitattributes" (.file .regular "") .nil))
      .nil)))))
  .nil

/-- A source directory with one file and a target directory that holds only a repository. -/
def gitOnlyFS : FS :=
  .cons "store" (.dir (.cons "a.txt" (.file .regular "hello") .nil))
  (.cons "repo" (.dir (.cons ".git" (.dir (.cons "config" (.file .regular "x") .nil)) .nil))
  .nil)

/-- A target directory that holds an unrelated file. -/
def notesFS : FS :=
  .cons "store" (.dir (.cons "a.txt" (.file .regular "hello") .nil))
  (.cons "repo" (.dir (.cons "notes.txt" (.file .regular "remember") .nil)) .nil)

/-! ## Theorems -/

/-! ### The code at the failing inputs -/

/-- C10 (the code at the failing input): options that select only SHA1, with one print mode,
are rejected by `validateOptions` with the message "must use at least one hash flag", although
`createConfig` yields the non-empty hash list `[SHA1]` for them. -/
theorem validateOptions_rejects_sha1_only :
    sha1Options.useSha1 = true ∧
    (sha1Options.printBinaryMode && sha1Options.printTextMode) = false ∧
    validateOptions sha1Options = some "invalid arguments: must use at least one hash flag" ∧
    (createConfig sha1Options).hashes = [cryptoSHA1] := by
  decide

/-- C5 (the code at the failing input): with the text mode configured, the line written for
`a.txt` still carries the marker `*`, and not the space the text mode asks for; the line
`WriteChecksum` appends never depends on the print mode. -/
theorem WriteChecksum_ignores_text_mode :
    (createConfig textOptions).mode = printMode.ModeText ∧
    lookup ["repo", "MD5SUMS"]
        (Calculate noFaults toyLib (createConfig textOptions) ["store"] exampleFS).2
      = some (.file .regular "68656c6c6f *a.txt\n776f726c64 *sub/b.txt\n") ∧
    (∀ (w : checksumWriter) (p : String),
      (w.WriteChecksum noFaults p).2.writer = w.writer ++ (hex w.hash.Sum ++ " *" ++ p ++ "\n")) := by
  refine ⟨by decide, rfl, ?_⟩
  intro w p
  rfl

/-- C3 (the code at the failing input): a run with MD5 and SHA256 on `exampleFS` succeeds and
leaves the manifests `MD5SUMS` and `SHA256SUMS` in the target directory; on that target
directory `ensureIsGitSumRepo` returns an error, so a second run is refused. -/
theorem ensureIsGitSumRepo_rejects_own_manifests :
    Calculate noFaults toyLib (createConfig twoHashOptions) ["store"] exampleFS = (none, rerunFS) ∧
    ensureIsGitSumRepo ["repo"] rerunFS
      = some (.new "ensureIsGitSumRepo: unexpected file MD5SUMS found in repository") ∧
    (Calculate noFaults toyLib (createConfig twoHashOptions) ["store"] rerunFS).1
      = some (.new "ensureIsGitSumRepo: unexpected file MD5SUMS found in repository") := by
  refine ⟨rfl, by decide, by decide⟩

/-- C7 (the code at the failing input): with the writers for MD5 and SHA256 and a failing
flush of `MD5SUMS`, the closing loop of `calcChecksums` returns at the first writer: `Close`
is never invoked on the second writer, whose buffered lines are not written to its file. -/
theorem calcChecksums_close_stops_at_first_failure :
    createWriters toyLib (createConfig twoHashOptions)
      = .ok [newChecksumWriter ["repo"] (md5New toyLib), newChecksumWriter ["repo"] (sha256New toyLib)] ∧
    (calcChecksums flushFault ["store"]
        [newChecksumWriter ["repo"] (md5New toyLib), newChecksumWriter ["repo"] (sha256New toyLib)]
        exampleFS).1
      = some (.wrap "failed to close checksum writer" (.os "write" ["repo", "MD5SUMS"])) ∧
    (calcChecksums flushFault ["store"]
        [newChecksumWriter ["repo"] (md5New toyLib), newChecksumWriter ["repo"] (sha256New toyLib)]
        exampleFS).2.1.map (fun w => (w.filename, w.closeCalls, w.writer))
      = [(["repo", "MD5SUMS"], 1, "68656c6c6f *a.txt\n776f726c64 *sub/b.txt\n"),
         (["repo", "SHA256SUMS"], 0, "68656c6c6f00 *a.txt\n776f726c6400 *sub/b.txt\n")] ∧
    lookup ["repo", "SHA256SUMS"]
        (calcChecksums flushFault ["store"]
          [newChecksumWriter ["repo"] (md5New toyLib), newChecksumWriter ["repo"] (sha256New toyLib)]
          exampleFS).2.2
      = some (.file .regular "") := by
  refine ⟨rfl, by decide, by decide, rfl⟩

/-! ### The file system -/

/-- Induction on the entries of one directory. -/
theorem Entries.induction_on_entries {P : Entries → Prop} (hnil : P .nil)
    (hcons : ∀ n d rest, P rest → P (.cons n d rest)) : ∀ es, P es
  | .nil => hnil
  | .cons n d rest => hcons n d rest (Entries.induction_on_entries hnil hcons rest)

/-- Simultaneous induction on nodes and entries. -/
theorem Node.induction_on_nodes {P : Node → Prop} {Q : Entries → Prop}
    (hfile : ∀ k c, P (.file k c)) (hdir : ∀ es, Q es → P (.dir es))
    (hnil : Q .nil) (hcons : ∀ n d rest, P d → Q rest → Q (.cons n d rest)) :
    (∀ d, P d) ∧ (∀ es, Q es) :=
  ⟨fun d => Node.rec (motive_1 := P) (motive_2 := Q) hfile hdir hnil hcons d,
   fun es => Entries.rec (motive_1 := P) (motive_2 := Q) hfile hdir hnil hcons es⟩

theorem find_modify (n m : String) (g : Node → Node) (es : Entries) :
    (es.modify n g).find m = if m = n then (es.find n).map g else es.find m := by
  induction es using Entries.induction_on_entries with
  | hnil => simp [Entries.modify, Entries.find]
  | hcons k d rest ih =>
    simp only [Entries.modify]
    by_cases hk : k = n
    · subst hk
      by_cases hm : m = k
      · subst hm; simp [Entries.find]
      · have : ¬ k = m := fun h => hm h.symm
        simp [Entries.find, hm, this]
    · by_cases hm : m = n
      · subst hm; simp [Entries.find, hk, ih]
      · simp [Entries.find, hk, hm, ih]

theorem find_put (n m : String) (x : Node) (es : Entries) :
    (es.put n x).find m = if m = n then some x else es.find m := by
  induction es using Entries.induction_on_entries with
  | hnil =>
    by_cases hm : m = n
    · subst hm; simp [Entries.put, Entries.find]
    · have : ¬ n = m := fun h => hm h.symm
      simp [Entries.put, Entries.find, hm, this]
  | hcons k d rest ih =>
    simp only [Entries.put]
    by_cases hk : k = n
    · subst hk
      by_cases hm : m = k
      · subst hm; simp [Entries.find]
      · have : ¬ k = m := fun h => hm h.symm
        simp [Entries.find, hm, this]
    · by_cases hm : m = n
      · subst hm; simp [Entries.find, hk, ih]
      · simp [Entries.find, hk, hm, ih]

theorem modify_modify (n : String) (g h : Node → Node) (es : Entries) :
    (es.modify n g).modify n h = es.modify n (h ∘ g) := by
  induction es using Entries.induction_on_entries with
  | hnil => simp [Entries.modify]
  | hcons k d rest ih =>
    by_cases hk : k = n
    · simp [Entries.modify, hk]
    · simp [Entries.modify, hk, ih]

theorem modify_congr (n : String) (g h : Node → Node) (es : Entries)
    (hgh : ∀ d, es.find n = some d → g d = h d) : es.modify n g = es.modify n h := by
  induction es using Entries.induction_on_entries with
  | hnil => simp [Entries.modify]
  | hcons k d rest ih =>
    by_cases hk : k = n
    · have := hgh d (by simp [Entries.find, hk])
      simp [Entries.modify, hk, this]
    · have := ih (fun d hd => hgh d (by simpa [Entries.find, hk] using hd))
      simp [Entries.modify, hk, this]

theorem lookup_append (p q : Path) : ∀ (es T : Entries),
    lookup p es = some (.dir T) → lookup (p ++ q) es = lookup q T := by
  induction p with
  | nil =>
    intro es T h
    simp [lookup] at h
    simp [h]
  | cons n p ih =>
    intro es T h
    simp only [lookup, List.cons_append] at h ⊢
    cases hf : es.find n with
    | none => simp [hf] at h
    | some d =>
      cases d with
      | file k c =>
        simp only [hf] at h
        split at h <;> simp at h
      | dir sub =>
        simp only [hf] at h ⊢
        exact ih sub T h

theorem lookup_modifyDir_append (p q : Path) (g : Entries → Entries) : ∀ (es T : Entries),
    lookup p es = some (.dir T) → lookup (p ++ q) (modifyDir p g es) = lookup q (g T) := by
  induction p with
  | nil =>
    intro es T h
    simp [lookup] at h
    simp [modifyDir, h]
  | cons n p ih =>
    intro es T h
    simp only [lookup, List.cons_append, modifyDir] at h ⊢
    rw [find_modify]
    cases hf : es.find n with
    | none => simp [hf] at h
    | some d =>
      cases d with
      | file k c =>
        simp only [hf] at h
        split at h <;> simp at h
      | dir sub =>
        simp only [hf] at h ⊢
        simp only [if_true, Option.map_some']
        exact ih sub T h

theorem lookup_modifyDir_disjoint (g : Entries → Entries) : ∀ (p q : Path) (es : Entries),
    ¬ p <+: q → ¬ q <+: p → lookup q (modifyDir p g es) = lookup q es := by
  intro p
  induction p with
  | nil =>
    intro q es h1 _
    exact absurd List.nil_prefix h1
  | cons n p ih =>
    intro q es h1 h2
    cases q with
    | nil => exact absurd List.nil_prefix h2
    | cons m q =>
      simp only [lookup, modifyDir]
      rw [find_modify]
      by_cases hm : m = n
      · subst hm
        have h1' : ¬ p <+: q := fun h => h1 (List.cons_prefix_cons.mpr ⟨rfl, h⟩)
        have h2' : ¬ q <+: p := fun h => h2 (List.cons_prefix_cons.mpr ⟨rfl, h⟩)
        cases hf : es.find m with
        | none => simp
        | some d =>
          cases d with
          | file k c => simp
          | dir sub =>
            simp only [if_true, Option.map_some']
            exact ih q sub h1' h2'
      · simp [hm]

theorem modifyDir_comp (g h : Entries → Entries) : ∀ (p : Path) (es : Entries),
    modifyDir p h (modifyDir p g es) = modifyDir p (h ∘ g) es := by
  intro p
  induction p with
  | nil => intro es; simp [modifyDir]
  | cons n p ih =>
    intro es
    simp only [modifyDir]
    rw [modify_modify]
    apply modify_congr
    intro d _
    cases d with
    | file k c => rfl
    | dir sub => simp [ih]

theorem modifyDir_congr (g h : Entries → Entries) : ∀ (p : Path) (es T : Entries),
    lookup p es = some (.dir T) → g T = h T → modifyDir p g es = modifyDir p h es := by
  intro p
  induction p with
  | nil =>
    intro es T hl hgh
    simp [lookup] at hl
    simp [modifyDir, hl, hgh]
  | cons n p ih =>
    intro es T hl hgh
    simp only [modifyDir]
    apply modify_congr
    intro d hd
    simp only [lookup, hd] at hl
    cases d with
    | file k c => rfl
    | dir sub =>
      simp only at hl
      simp [ih sub T hl hgh]

/-! ### `resetChecksums` -/

theorem foldl_erase_cons_of_not_mem (n : String) (d : Node) : ∀ (ns : List String) (X : Entries),
    n ∉ ns → ns.foldl (fun t m => Entries.erase m t) (.cons n d X)
      = .cons n d (ns.foldl (fun t m => Entries.erase m t) X) := by
  intro ns
  induction ns with
  | nil => intro X _; rfl
  | cons m ns ih =>
    intro X h
    have hm : ¬ n = m := fun e => h (by simp [e])
    have hns : n ∉ ns := fun e => h (by simp [e])
    simp only [List.foldl_cons, Entries.erase, hm, if_false]
    exact ih _ hns

theorem removed_subset_names (es : Entries) : ∀ n, n ∈ es.removed → n ∈ es.names := by
  induction es using Entries.induction_on_entries with
  | hnil => intro n h; simp [Entries.removed] at h
  | hcons k d rest ih =>
    intro n h
    simp only [Entries.removed] at h
    simp only [Entries.names, List.mem_cons]
    split at h
    · exact Or.inr (ih n h)
    · rcases List.mem_cons.mp h with h | h
      · exact Or.inl h
      · exact Or.inr (ih n h)

theorem foldl_erase_removed (es : Entries) (hnd : es.names.Nodup) :
    es.removed.foldl (fun t m => Entries.erase m t) es = es.protectedOnly := by
  induction es using Entries.induction_on_entries with
  | hnil => rfl
  | hcons k d rest ih =>
    simp only [Entries.names, List.nodup_cons] at hnd
    cases hp : isProtected k d with
    | true =>
      simp only [Entries.removed, Entries.protectedOnly, hp, if_true]
      rw [foldl_erase_cons_of_not_mem k d _ _ (fun h => hnd.1 (removed_subset_names rest k h))]
      rw [ih hnd.2]
    | false =>
      simp only [Entries.removed, Entries.protectedOnly, hp, Bool.false_eq_true, if_false,
        List.foldl_cons, Entries.erase, if_true]
      exact ih hnd.2

theorem find_mem_names (es : Entries) (n : String) (d : Node) (h : es.find n = some d) :
    n ∈ es.names := by
  induction es using Entries.induction_on_entries with
  | hnil => simp [Entries.find] at h
  | hcons k d0 rest ih =>
    simp only [Entries.find] at h
    simp only [Entries.names, List.mem_cons]
    by_cases hk : k = n
    · exact Or.inl hk.symm
    · simp only [hk, if_false] at h
      exact Or.inr (ih h)

theorem find_protectedOnly (es : Entries) (hnd : es.names.Nodup) (n : String) (d : Node) :
    es.protectedOnly.find n = some d ↔ (es.find n = some d ∧ isProtected n d = true) := by
  induction es using Entries.induction_on_entries with
  | hnil => simp [Entries.protectedOnly, Entries.find]
  | hcons k d0 rest ih =>
    simp only [Entries.names, List.nodup_cons] at hnd
    have ih := ih hnd.2
    by_cases hk : k = n
    · subst hk
      have hnot : ∀ x, rest.find k ≠ some x := fun x hx => hnd.1 (find_mem_names rest k x hx)
      cases hp : isProtected k d0 with
      | true =>
        simp only [Entries.protectedOnly, hp, if_true, Entries.find]
        constructor
        · intro h
          have : d0 = d := by simpa using h
          subst this
          exact ⟨rfl, hp⟩
        · intro h; exact h.1
      | false =>
        simp only [Entries.protectedOnly, hp, Bool.false_eq_true, if_false, Entries.find,
          if_true]
        rw [ih]
        constructor
        · intro h; exact absurd h.1 (hnot d)
        · intro h
          have : d0 = d := by simpa using h.1
          subst this
          rw [hp] at h
          exact absurd h.2 (by decide)
    · cases hp : isProtected k d0 with
      | true =>
        simp only [Entries.protectedOnly, hp, if_true, Entries.find, hk, if_false]
        exact ih
      | false =>
        simp only [Entries.protectedOnly, hp, Bool.false_eq_true, if_false, Entries.find, hk]
        exact ih

theorem foldl_modifyDir_erase (p : Path) : ∀ (ns : List String) (fs0 : FS),
    ns.foldl (fun f n => modifyDir p (Entries.erase n) f) fs0
      = modifyDir p (fun t => ns.foldl (fun t m => Entries.erase m t) t) fs0 := by
  intro ns
  induction ns with
  | nil =>
    intro fs0
    simp only [List.foldl_nil]
    have : ∀ (q : Path) (es : Entries), modifyDir q (fun t => t) es = es := by
      intro q
      induction q with
      | nil => intro es; rfl
      | cons m q ihq =>
        intro es
        simp only [modifyDir]
        have h2 : es.modify m (fun d => d) = es := by
          induction es using Entries.induction_on_entries with
          | hnil => rfl
          | hcons k d rest ihr =>
            by_cases hk : k = m
            · simp [Entries.modify, hk]
            · simp [Entries.modify, hk, ihr]
        rw [← h2]
        rw [modify_modify]
        apply modify_congr
        intro d _
        cases d with
        | file k c => rfl
        | dir sub => simp [ihq]
    exact (this p fs0).symm
  | cons n ns ih =>
    intro fs0
    simp only [List.foldl_cons]
    rw [ih, modifyDir_comp]
    rfl

theorem walkEntries_reset (F : Faults) (repoPath : Path) (hF : ∀ p, F.removeFails p = false) :
    ∀ (es : Entries) (fs0 : FS),
      walkEntries (resetChecksumsFn F repoPath) [] es fs0
        = (none, es.removed.foldl (fun f n => modifyDir repoPath (Entries.erase n) f) fs0) := by
  intro es
  induction es using Entries.induction_on_entries with
  | hnil => intro fs0; simp [walkEntries, Entries.removed]
  | hcons n d rest ih =>
    intro fs0
    cases d with
    | file k c =>
      by_cases hn : n = ".gitattributes"
      · simp [walkEntries, walkDir, resetChecksumsFn, Node.entry, pathJoin, hn, Entries.removed,
          isProtected, Node.isDir, ih]
      · simp [walkEntries, walkDir, resetChecksumsFn, Node.entry, pathJoin, hn, Entries.removed,
          isProtected, Node.isDir, ih, osRemove, hF]
    | dir sub =>
      by_cases hn : n = ".git"
      · simp [walkEntries, walkDir, resetChecksumsFn, Node.entry, pathJoin, hn, Entries.removed,
          isProtected, Node.isDir, ih]
      · simp [walkEntries, walkDir, resetChecksumsFn, Node.entry, pathJoin, hn, Entries.removed,
          isProtected, Node.isDir, ih, osRemove, hF]

/-- C4: when no removal fails, `resetChecksums` on a target directory with entries `T` returns
no error and yields the file system in which the entries of the target directory are
filtered down to the directory `.git` and the file `.gitattributes`: the target directory is
still a directory, an entry is in it afterwards exactly when it was in it before and is
protected (with the same node, so `.git` keeps its whole content), and paths outside the
target directory are unchanged. -/
theorem resetChecksums_keeps_protected_only (F : Faults) (repoPath : Path) (fs : FS)
    (T : Entries) (hF : ∀ p, F.removeFails p = false)
    (hT : lookup repoPath fs = some (.dir T)) (hnd : T.names.Nodup) :
    resetChecksums F repoPath fs = (none, modifyDir repoPath Entries.protectedOnly fs) ∧
    lookup repoPath (resetChecksums F repoPath fs).2 = some (.dir T.protectedOnly) ∧
    (∀ n d, T.protectedOnly.find n = some d ↔ (T.find n = some d ∧ isProtected n d = true)) ∧
    (∀ q, lookup (repoPath ++ ".git" :: q) (resetChecksums F repoPath fs).2
        = if isProtected ".git" ((T.find ".git").getD (.dir .nil)) then
            lookup (repoPath ++ ".git" :: q) fs
          else none) ∧
    (∀ q, ¬ repoPath <+: q → ¬ q <+: repoPath →
      lookup q (resetChecksums F repoPath fs).2 = lookup q fs) := by
  have hres : resetChecksums F repoPath fs
      = (none, modifyDir repoPath Entries.protectedOnly fs) := by
    simp only [resetChecksums, osDirFS, hT, WalkDir, walkDir]
    simp only [resetChecksumsFn, Node.entry]
    simp only [if_true, walkEntries_reset F repoPath hF, foldl_modifyDir_erase]
    rw [modifyDir_congr _ Entries.protectedOnly repoPath fs T hT (foldl_erase_removed T hnd)]
  have hlook : ∀ q, lookup (repoPath ++ q) (modifyDir repoPath Entries.protectedOnly fs)
      = lookup q T.protectedOnly := fun q => lookup_modifyDir_append repoPath q _ fs T hT
  refine ⟨hres, ?_, find_protectedOnly T hnd, ?_, ?_⟩
  · rw [hres]
    simpa [lookup] using hlook []
  · intro q
    rw [hres]
    simp only [hlook, lookup_append repoPath _ fs T hT]
    simp only [lookup]
    cases hf : T.find ".git" with
    | none =>
      have : T.protectedOnly.find ".git" = none := by
        cases hg : T.protectedOnly.find ".git" with
        | none => rfl
        | some x =>
          have := (find_protectedOnly T hnd ".git" x).mp hg
          simp [hf] at this
      simp [this, isProtected, Node.isDir]
    | some d =>
      by_cases hp : isProtected ".git" d = true
      · have : T.protectedOnly.find ".git" = some d :=
          (find_protectedOnly T hnd ".git" d).mpr ⟨hf, hp⟩
        simp [this, hp]
      · have : T.protectedOnly.find ".git" = none := by
          cases hg : T.protectedOnly.find ".git" with
          | none => rfl
          | some x =>
            have h2 := (find_protectedOnly T hnd ".git" x).mp hg
            rw [hf] at h2
            have : d = x := by simpa using h2.1
            subst this
            exact absurd h2.2 hp
        simp [this, hp]
  · intro q h1 h2
    rw [hres]
    exact lookup_modifyDir_disjoint _ repoPath q fs h1 h2

theorem resetChecksums_keeps_protected_only_witness :
    resetChecksums noFaults ["repo"] resetFS
      = (none, modifyDir ["repo"] Entries.protectedOnly resetFS) :=
  (resetChecksums_keeps_protected_only noFaults ["repo"] resetFS
    (.cons ".git" (.dir (.cons "config" (.file .regular "x") .nil))
      (.cons ".gitattributes" (.file .regular "* text")
      (.cons "MD5SUMS" (.file .regular "00 *a\n")
      (.cons "old" (.dir (.cons ".gitattributes" (.file .regular "") .nil))
      .nil))))
    (fun _ => rfl) rfl (by decide)).1


/-! ### `ensureIsGitSumRepo` -/

theorem pathBase_join (a b : Path) (hb : b ≠ []) : pathBase (pathJoin a b) = pathBase b := by
  unfold pathBase pathJoin
  rw [List.getLast?_append]
  cases h : b.getLast? with
  | none => exact absurd (List.getLast?_eq_none_iff.mp h) hb
  | some x => simp

theorem ensure_walk_no_skip (repoPath : Path) :
    (∀ (d : Node) (pre : Path) (nm : String) (u : Unit),
      (walkDir (ensureIsGitSumRepoFn repoPath) pre nm d u).1 ≠ some .SkipDir) ∧
    (∀ (es : Entries) (pre : Path) (u : Unit),
      (walkEntries (ensureIsGitSumRepoFn repoPath) pre es u).1 ≠ some .SkipDir) := by
  apply Node.induction_on_nodes
  · intro k c pre nm u
    simp only [walkDir, ensureIsGitSumRepoFn, Node.entry]
    split_ifs <;> simp_all
  · intro es ih pre nm u
    simp only [walkDir, ensureIsGitSumRepoFn, Node.entry]
    by_cases hp : pre = [".git"]
    · simp [hp]
    · simp only [hp, if_true, if_false]
      exact ih pre u
  · intro pre u
    simp [walkEntries]
  · intro n d rest ihd ihr pre u
    simp only [walkEntries]
    have hd := ihd (pathJoin pre [n]) n u
    rcases hw : walkDir (ensureIsGitSumRepoFn repoPath) (pathJoin pre [n]) n d u with ⟨r, s1⟩
    rw [hw] at hd
    cases r with
    | none => exact ihr pre s1
    | some e =>
      by_cases he : e = Err.SkipDir
      · simp [he]
      · simp only [he, if_false]
        simpa using he

theorem ensure_walk_foreign (repoPath : Path) :
    ∀ (q : Path) (es : Entries) (pre : Path) (k : FileKind) (c : String) (u : Unit),
      lookup q es = some (.file k c) →
      pre ++ q ≠ [".gitattributes"] →
      pathBase (pre ++ q) ≠ "md5sums" →
      pathBase (pre ++ q) ≠ "sha256sums" →
      (∀ r, r ≠ [] → pre ++ q ≠ ".git" :: r) →
      ∃ e, (walkEntries (ensureIsGitSumRepoFn repoPath) pre es u).1 = some e := by
  intro q
  induction q with
  | nil =>
    intro es pre k c u h
    simp [lookup] at h
  | cons n q ih =>
    intro es
    induction es using Entries.induction_on_entries with
    | hnil =>
      intro pre k c u h
      simp [lookup, Entries.find] at h
    | hcons m d rest ihr =>
      intro pre k c u h h1 h2 h3 h4
      simp only [walkEntries]
      have hns := (ensure_walk_no_skip repoPath).1 d (pathJoin pre [m]) m u
      rcases hw : walkDir (ensureIsGitSumRepoFn repoPath) (pathJoin pre [m]) m d u with ⟨r, s1⟩
      rw [hw] at hns
      cases r with
      | some e =>
        have he : e ≠ Err.SkipDir := by simpa using hns
        exact ⟨e, by simp [he]⟩
      | none =>
        by_cases hm : m = n
        · exfalso
          subst hm
          cases d with
          | file k1 c1 =>
            simp only [lookup, Entries.find, if_true] at h
            have hq : q = [] := by
              by_contra hq
              simp [hq] at h
            subst hq
            have hb : pathBase (pathJoin repoPath (pathJoin pre [m])) = pathBase (pre ++ [m]) :=
              pathBase_join repoPath (pre ++ [m]) (by simp)
            simp only [walkDir, ensureIsGitSumRepoFn, Node.entry, hb] at hw
            simp [pathJoin, h1, h2, h3] at hw
          | dir sub =>
            simp only [lookup, Entries.find, if_true] at h
            have hq : q ≠ [] := by
              intro hq
              subst hq
              simp [lookup] at h
            have hp : pathJoin pre [m] ≠ [".git"] := by
              intro hp
              have : pre ++ m :: q = ".git" :: q := by
                have h5 : pre ++ m :: q = (pre ++ [m]) ++ q := by simp
                rw [h5]
                unfold pathJoin at hp
                rw [hp]
                rfl
              exact h4 q hq this
            have hassoc : pathJoin pre [m] ++ q = pre ++ m :: q := by simp [pathJoin]
            obtain ⟨e, he⟩ := ih sub (pathJoin pre [m]) k c u h
              (by rw [hassoc]; exact h1) (by rw [hassoc]; exact h2) (by rw [hassoc]; exact h3)
              (by rw [hassoc]; exact h4)
            simp only [walkDir, ensureIsGitSumRepoFn, Node.entry, hp, if_true, if_false] at hw
            rw [hw] at he
            simp at he
        · simp only [lookup, Entries.find, hm, if_false] at h
          exact ihr pre k c s1 h h1 h2 h3 h4


theorem ensure_walk_no_skipAll (repoPath : Path) :
    (∀ (d : Node) (pre : Path) (nm : String) (u : Unit),
      (walkDir (ensureIsGitSumRepoFn repoPath) pre nm d u).1 ≠ some .SkipAll) ∧
    (∀ (es : Entries) (pre : Path) (u : Unit),
      (walkEntries (ensureIsGitSumRepoFn repoPath) pre es u).1 ≠ some .SkipAll) := by
  apply Node.induction_on_nodes
  · intro k c pre nm u
    simp only [walkDir, ensureIsGitSumRepoFn, Node.entry]
    split_ifs <;> simp_all
  · intro es ih pre nm u
    simp only [walkDir, ensureIsGitSumRepoFn, Node.entry]
    by_cases hp : pre = [".git"]
    · simp [hp]
    · simp only [hp, if_true, if_false]
      exact ih pre u
  · intro pre u
    simp [walkEntries]
  · intro n d rest ihd ihr pre u
    simp only [walkEntries]
    have hd := ihd (pathJoin pre [n]) n u
    rcases hw : walkDir (ensureIsGitSumRepoFn repoPath) (pathJoin pre [n]) n d u with ⟨r, s1⟩
    rw [hw] at hd
    cases r with
    | none => exact ihr pre s1
    | some e =>
      by_cases he : e = Err.SkipDir
      · simp [he]
      · simp only [he, if_false]
        simpa using hd

/-- C2 (counterexample): the target directory `repo` of `gitOnlyFS` contains the file
`.git/config`, which is neither a manifest nor `.gitattributes`; `ensureIsGitSumRepo` returns
no error on it, and `Calculate` runs to its end and creates the manifest `MD5SUMS` in the
target directory. -/
theorem ensureIsGitSumRepo_accepts_file_below_git :
    lookup ["repo", ".git", "config"] gitOnlyFS = some (.file .regular "x") ∧
    ensureIsGitSumRepo ["repo"] gitOnlyFS = none ∧
    lookup ["repo", "MD5SUMS"] gitOnlyFS = none ∧
    (Calculate noFaults toyLib (createConfig twoHashOptions) ["store"] gitOnlyFS).1 = none ∧
    lookup ["repo", "MD5SUMS"]
        (Calculate noFaults toyLib (createConfig twoHashOptions) ["store"] gitOnlyFS).2
      = some (.file .regular "68656c6c6f *a.txt\n") := by
  refine ⟨rfl, by decide, rfl, by decide, rfl⟩

/-- C2 (amended): when the target directory contains, at a path `q` that is not below its
top-level `.git` directory, a file that is neither the top-level `.gitattributes` nor named like
a manifest (`MD5SUMS`, `SHA1SUMS`, `SHA256SUMS`, `SHA512SUMS`, `md5sums`, `sha256sums`),
`ensureIsGitSumRepo` returns an error, and `Calculate` returns that error with the file system
unchanged. -/
theorem Calculate_aborts_on_foreign_file (F : Faults) (L : CryptoLib)
    (cfg : ChecksumCalculatorConfig) (sourceDirectoryPath : Path) (fs : FS) (T : Entries)
    (q : Path) (k : FileKind) (c : String)
    (hT : lookup cfg.targetDirectoryPath fs = some (.dir T))
    (hq : lookup q T = some (.file k c))
    (h1 : q ≠ [".gitattributes"])
    (h2 : isManifestName (pathBase q) = false)
    (h4 : ∀ r, r ≠ [] → q ≠ ".git" :: r) :
    ∃ e, ensureIsGitSumRepo cfg.targetDirectoryPath fs = some e ∧
      Calculate F L cfg sourceDirectoryPath fs = (some e, fs) := by
  have hm : pathBase q ≠ "md5sums" := by
    intro h
    rw [h] at h2
    exact absurd h2 (by decide)
  have hs : pathBase q ≠ "sha256sums" := by
    intro h
    rw [h] at h2
    exact absurd h2 (by decide)
  obtain ⟨e, he⟩ := ensure_walk_foreign cfg.targetDirectoryPath q T [] k c () hq
    (by simpa using h1) (by simpa using hm) (by simpa using hs) (by simpa using h4)
  have hns := (ensure_walk_no_skip cfg.targetDirectoryPath).2 T [] ()
  have h5 : e ≠ Err.SkipDir := by
    intro h
    rw [he, h] at hns
    exact hns rfl
  have hall := (ensure_walk_no_skipAll cfg.targetDirectoryPath).2 T [] ()
  have h6 : e ≠ Err.SkipAll := by
    intro h
    rw [he, h] at hall
    exact hall rfl
  have hens : ensureIsGitSumRepo cfg.targetDirectoryPath fs = some e := by
    rcases hw : walkEntries (ensureIsGitSumRepoFn cfg.targetDirectoryPath) [] T () with ⟨r, s1⟩
    rw [hw] at he
    simp only at he
    subst he
    simp [ensureIsGitSumRepo, osDirFS, hT, WalkDir, walkDir, ensureIsGitSumRepoFn, Node.entry,
      hw, h5, h6]
  exact ⟨e, hens, by simp [Calculate, hens]⟩

theorem Calculate_aborts_on_foreign_file_witness :
    ∃ e, ensureIsGitSumRepo ["repo"] notesFS = some e ∧
      Calculate noFaults toyLib (createConfig twoHashOptions) ["store"] notesFS
        = (some e, notesFS) :=
  Calculate_aborts_on_foreign_file noFaults toyLib (createConfig twoHashOptions) ["store"]
    notesFS (.cons "notes.txt" (.file .regular "remember") .nil) ["notes.txt"] .regular
    "remember" rfl rfl (by decide) (by decide) (by intro r _ h; simp at h)


/-! ### `createWriters` -/

theorem createWritersLoop_ok (L : CryptoLib) (t : Path) :
    ∀ (hs : List cryptoHash) (acc : List checksumWriter), (∀ h ∈ hs, supported h) →
      createWritersLoop L t hs acc = .ok (acc ++ hs.map (writerFor L t)) := by
  intro hs
  induction hs with
  | nil => intro acc _; simp [createWritersLoop]
  | cons h rest ih =>
    intro acc hsup
    have hh : supported h := hsup h (by simp)
    have hrest : ∀ x ∈ rest, supported x := fun x hx => hsup x (by simp [hx])
    rcases hh with h1 | h1 | h1 | h1 <;> subst h1 <;>
      simp [createWritersLoop, writerFor, ih _ hrest, cryptoMD5, cryptoSHA1, cryptoSHA256,
        cryptoSHA512]

theorem createWriters_ok (L : CryptoLib) (cfg : ChecksumCalculatorConfig)
    (hs : ∀ h ∈ cfg.hashes, supported h) :
    createWriters L cfg = .ok (cfg.hashes.map (writerFor L cfg.targetDirectoryPath)) := by
  simp [createWriters, createWritersLoop_ok L cfg.targetDirectoryPath cfg.hashes [] hs]

theorem writerFor_filename (L : CryptoLib) (t : Path) (h : cryptoHash) :
    (writerFor L t h).filename = pathJoin t [manifestName h] := by
  unfold writerFor manifestName
  split_ifs <;> simp only [newChecksumWriter, md5New, sha1New, sha256New, sha512New] <;>
    congr 2

theorem writerFor_digest (L : CryptoLib) (t : Path) (h : cryptoHash) :
    (writerFor L t h).hash.digest = digestOf L h := by
  unfold writerFor digestOf
  split_ifs <;> rfl

theorem manifestName_injective (h1 h2 : cryptoHash) (s1 : supported h1) (s2 : supported h2)
    (hne : h1 ≠ h2) : manifestName h1 ≠ manifestName h2 := by
  rcases s1 with e1 | e1 | e1 | e1 <;> rcases s2 with e2 | e2 | e2 | e2 <;> subst e1 <;>
    subst e2 <;> first | exact absurd rfl hne | decide

/-- C6: when every requested algorithm is one of MD5, SHA1, SHA256 and SHA512, `createWriters`
returns one writer for each requested algorithm, in request order; the writer of an algorithm
has the output path `<targetDir>/<ALGO>SUMS` (`MD5SUMS`, `SHA1SUMS`, `SHA256SUMS`,
`SHA512SUMS`) and the digest function of the algorithm; the name is derived from the type
name of the hash (a hash whose type name is `*md5.digest` gets `MD5SUMS`); and distinct
algorithms get distinct output paths. -/
theorem createWriters_manifest_paths (L : CryptoLib) (cfg : ChecksumCalculatorConfig)
    (hs : ∀ h ∈ cfg.hashes, supported h) :
    ∃ ws, createWriters L cfg = .ok ws ∧
      ws.length = cfg.hashes.length ∧
      ws.map (fun w => w.filename)
        = cfg.hashes.map (fun h => pathJoin cfg.targetDirectoryPath [manifestName h]) ∧
      ws.map (fun w => w.hash.digest) = cfg.hashes.map (digestOf L) ∧
      [manifestName cryptoMD5, manifestName cryptoSHA1, manifestName cryptoSHA256,
        manifestName cryptoSHA512] = ["MD5SUMS", "SHA1SUMS", "SHA256SUMS", "SHA512SUMS"] ∧
      (∀ x : Hash, x.typeName = "*md5.digest" →
        (newChecksumWriter cfg.targetDirectoryPath x).filename
          = pathJoin cfg.targetDirectoryPath ["MD5SUMS"]) ∧
      (∀ h1 h2, supported h1 → supported h2 → h1 ≠ h2 →
        pathJoin cfg.targetDirectoryPath [manifestName h1]
          ≠ pathJoin cfg.targetDirectoryPath [manifestName h2]) := by
  refine ⟨_, createWriters_ok L cfg hs, by simp, ?_, ?_, by decide, ?_, ?_⟩
  · simp [List.map_map, Function.comp_def, writerFor_filename]
  · simp [List.map_map, Function.comp_def, writerFor_digest]
  · intro x hx
    simp only [newChecksumWriter, hx]
    congr 2
  · intro h1 h2 s1 s2 hne heq
    have := manifestName_injective h1 h2 s1 s2 hne
    simp [pathJoin] at heq
    exact this heq

theorem createWriters_manifest_paths_witness :
    ∃ ws, createWriters toyLib (createConfig twoHashOptions) = .ok ws ∧
      ws.map (fun w => w.filename) = [["repo", "MD5SUMS"], ["repo", "SHA256SUMS"]] := by
  obtain ⟨ws, h1, _, h3, _⟩ := createWriters_manifest_paths toyLib (createConfig twoHashOptions)
    (by decide)
  exact ⟨ws, h1, h3⟩


/-! ### `scan` -/

theorem scan_walk (ctx : Nat → Bool) :
    (∀ (d : Node) (pre : Path) (nm : String) (counter : Int) (calls : Nat),
      pre ≠ [] → (d.isDir = true → pre ≠ [".git"]) →
      ((∀ k, calls ≤ k → k < calls + d.visits → ctx k = false) →
        walkDir (scanFn ctx) pre nm d (counter, calls)
          = (none, (counter + ((d.regularFiles pre).length : Int), calls + d.visits))) ∧
      ((∃ k, calls ≤ k ∧ k < calls + d.visits ∧ ctx k = true) →
        (walkDir (scanFn ctx) pre nm d (counter, calls)).1 = some .Canceled)) ∧
    (∀ (es : Entries) (pre : Path) (counter : Int) (calls : Nat),
      pre ≠ [] →
      ((∀ k, calls ≤ k → k < calls + es.visits → ctx k = false) →
        walkEntries (scanFn ctx) pre es (counter, calls)
          = (none, (counter + ((es.regularFiles pre).length : Int), calls + es.visits))) ∧
      ((∃ k, calls ≤ k ∧ k < calls + es.visits ∧ ctx k = true) →
        (walkEntries (scanFn ctx) pre es (counter, calls)).1 = some .Canceled)) := by
  apply Node.induction_on_nodes
  · intro k c pre nm counter calls hpre _
    constructor
    · intro hno
      have h0 : ctx calls = false := hno calls (Nat.le_refl _) (by simp [Node.visits])
      by_cases hk : k = FileKind.regular
      · simp [walkDir, scanFn, Node.entry, h0, hk, Node.regularFiles, Node.visits]
      · simp [walkDir, scanFn, Node.entry, h0, hk, Node.regularFiles, Node.visits]
    · rintro ⟨j, hj1, hj2, hj3⟩
      have : j = calls := by simp [Node.visits] at hj2; omega
      subst this
      simp [walkDir, scanFn, hj3]
  · intro es ih pre nm counter calls hpre hgit
    have hgit := hgit rfl
    constructor
    · intro hno
      have h0 : ctx calls = false := hno calls (Nat.le_refl _) (by simp [Node.visits])
      have h1 := (ih pre counter (calls + 1) hpre).1
        (fun k hk1 hk2 => hno k (by omega) (by simp [Node.visits]; omega))
      simp only [walkDir, scanFn, Node.entry, h0, hpre, hgit]
      simp only [Bool.false_eq_true, if_false, Option.isSome_none, if_true]
      rw [h1]
      simp [Node.regularFiles, Node.visits]
      omega
    · rintro ⟨j, hj1, hj2, hj3⟩
      by_cases h0 : ctx calls = true
      · simp [walkDir, scanFn, h0]
      · have h0 : ctx calls = false := by simpa using h0
        have hne : j ≠ calls := by
          intro h
          subst h
          rw [h0] at hj3
          exact absurd hj3 (by decide)
        have h2 := (ih pre counter (calls + 1) hpre).2
          ⟨j, by omega, by simp [Node.visits] at hj2; omega, hj3⟩
        simp only [walkDir, scanFn, Node.entry, h0, hpre, hgit]
        simp only [Bool.false_eq_true, if_false, Option.isSome_none, if_true]
        exact h2
  · intro pre counter calls _
    constructor
    · intro _
      simp [walkEntries, Entries.regularFiles, Entries.visits]
    · rintro ⟨j, hj1, hj2, _⟩
      simp [Entries.visits] at hj2
      omega
  · intro n d rest ihd ihr pre counter calls hpre
    have hp1 : pathJoin pre [n] ≠ [] := by simp [pathJoin]
    have hp2 : pathJoin pre [n] ≠ [".git"] := by
      intro h
      have hl := congrArg List.length h
      simp [pathJoin] at hl
      exact hpre hl
    have hd := ihd (pathJoin pre [n]) n counter calls hp1 (fun _ => hp2)
    constructor
    · intro hno
      have h1 := hd.1 (fun k hk1 hk2 => hno k hk1 (by simp [Entries.visits]; omega))
      have h2 := (ihr pre (counter + ((d.regularFiles (pathJoin pre [n])).length : Int))
        (calls + d.visits) hpre).1
        (fun k hk1 hk2 => hno k (by omega) (by simp [Entries.visits]; omega))
      simp only [walkEntries]
      rw [h1]
      simp only
      rw [h2]
      simp [Entries.regularFiles, Entries.visits, pathJoin]
      omega
    · rintro ⟨j, hj1, hj2, hj3⟩
      simp only [walkEntries]
      by_cases hc : ∃ k, calls ≤ k ∧ k < calls + d.visits ∧ ctx k = true
      · have h1 := hd.2 hc
        rcases hw : walkDir (scanFn ctx) (pathJoin pre [n]) n d (counter, calls) with ⟨r, s1⟩
        rw [hw] at h1
        simp only at h1
        subst h1
        simp
      · have hno : ∀ k, calls ≤ k → k < calls + d.visits → ctx k = false := by
          intro k hk1 hk2
          by_contra hk3
          exact hc ⟨k, hk1, hk2, by simpa using hk3⟩
        have h1 := hd.1 hno
        rw [h1]
        simp only
        have hj : calls + d.visits ≤ j := by
          by_contra hlt
          have := hno j hj1 (by omega)
          rw [this] at hj3
          exact absurd hj3 (by decide)
        exact (ihr pre _ (calls + d.visits) hpre).2
          ⟨j, hj, by simp [Entries.visits] at hj2; omega, hj3⟩


theorem scan_walk_top (ctx : Nat → Bool) :
    ∀ (es : Entries) (counter : Int) (calls : Nat),
      ((∀ k, calls ≤ k → k < calls + visitsOutsideGit es → ctx k = false) →
        walkEntries (scanFn ctx) [] es (counter, calls)
          = (none, (counter + ((regularFilesOutsideGit es).length : Int),
              calls + visitsOutsideGit es))) ∧
      ((∃ k, calls ≤ k ∧ k < calls + visitsOutsideGit es ∧ ctx k = true) →
        (walkEntries (scanFn ctx) [] es (counter, calls)).1 = some .Canceled) := by
  intro es
  induction es using Entries.induction_on_entries with
  | hnil =>
    intro counter calls
    constructor
    · intro _
      simp [walkEntries, regularFilesOutsideGit, visitsOutsideGit]
    · rintro ⟨j, hj1, hj2, _⟩
      simp [visitsOutsideGit] at hj2
      omega
  | hcons n d rest ihr =>
    intro counter calls
    -- the walk of the first entry
    have hd : ((∀ k, calls ≤ k →
          k < calls + (if n = ".git" ∧ d.isDir = true then 1 else d.visits) → ctx k = false) →
        walkDir (scanFn ctx) (pathJoin [] [n]) n d (counter, calls)
          = (none, (counter + (((if n = ".git" ∧ d.isDir = true then []
                else d.regularFiles [n]).length : Nat) : Int),
              calls + (if n = ".git" ∧ d.isDir = true then 1 else d.visits)))) ∧
      ((∃ k, calls ≤ k ∧ k < calls + (if n = ".git" ∧ d.isDir = true then 1 else d.visits) ∧
          ctx k = true) →
        (walkDir (scanFn ctx) (pathJoin [] [n]) n d (counter, calls)).1 = some .Canceled) := by
      by_cases hg : n = ".git" ∧ d.isDir = true
      · obtain ⟨hn, hdir⟩ := hg
        subst hn
        cases d with
        | file k c => simp [Node.isDir] at hdir
        | dir sub =>
          simp only [Node.isDir, and_self, if_true]
          constructor
          · intro hno
            have h0 : ctx calls = false := hno calls (Nat.le_refl _) (by omega)
            simp [walkDir, scanFn, Node.entry, h0, pathJoin]
          · rintro ⟨j, hj1, hj2, hj3⟩
            have : j = calls := by omega
            subst this
            simp [walkDir, scanFn, hj3]
      · simp only [hg, if_false]
        have hp2 : d.isDir = true → pathJoin [] [n] ≠ [".git"] := by
          intro hdir h
          simp [pathJoin] at h
          exact hg ⟨h, hdir⟩
        have := (scan_walk ctx).1 d (pathJoin [] [n]) n counter calls (by simp [pathJoin]) hp2
        simpa [pathJoin] using this
    constructor
    · intro hno
      have h1 := hd.1 (fun k hk1 hk2 => hno k hk1 (by simp only [visitsOutsideGit]; omega))
      have h2 := (ihr (counter + (((if n = ".git" ∧ d.isDir = true then []
          else d.regularFiles [n]).length : Nat) : Int))
        (calls + (if n = ".git" ∧ d.isDir = true then 1 else d.visits))).1
        (fun k hk1 hk2 => hno k (by omega) (by simp only [visitsOutsideGit]; omega))
      simp only [walkEntries]
      rw [h1]
      simp only
      rw [h2]
      simp only [regularFilesOutsideGit, visitsOutsideGit, List.length_append, Nat.cast_add]
      simp only [Prod.mk.injEq, true_and]
      constructor <;> omega
    · rintro ⟨j, hj1, hj2, hj3⟩
      simp only [walkEntries]
      by_cases hc : ∃ k, calls ≤ k ∧
          k < calls + (if n = ".git" ∧ d.isDir = true then 1 else d.visits) ∧ ctx k = true
      · have h1 := hd.2 hc
        rcases hw : walkDir (scanFn ctx) (pathJoin [] [n]) n d (counter, calls) with ⟨r, s1⟩
        rw [hw] at h1
        simp only at h1
        subst h1
        simp
      · have hno : ∀ k, calls ≤ k →
            k < calls + (if n = ".git" ∧ d.isDir = true then 1 else d.visits) →
            ctx k = false := by
          intro k hk1 hk2
          by_contra hk3
          exact hc ⟨k, hk1, hk2, by simpa using hk3⟩
        have h1 := hd.1 hno
        rw [h1]
        simp only
        have hj : calls + (if n = ".git" ∧ d.isDir = true then 1 else d.visits) ≤ j := by
          by_contra hlt
          have := hno j hj1 (by omega)
          rw [this] at hj3
          exact absurd hj3 (by decide)
        exact (ihr _ _).2 ⟨j, hj, by simp only [visitsOutsideGit] at hj2; omega, hj3⟩

/-- C8: on a source directory with entries `S`, a scan started on a scanner made by
`newScanner` calls `ctx.Err()` once for the root and once for each entry it visits.  When
none of these calls reports a cancellation, the scan returns no error and sets the total
count to the number of regular files of `S`, the content of the top-level `.git` directory
left out and entries that are not regular files not counted.  When one of these calls
reports the cancellation, the scan returns the cancellation error and the total count stays
at `-1`. -/
theorem scan_total_count (ctx : Nat → Bool) (storePath : Path) (fs : FS) (S : Entries)
    (hS : lookup storePath fs = some (.dir S)) :
    ((∀ k, k < 1 + visitsOutsideGit S → ctx k = false) →
      newScanner.scan ctx storePath fs
          = (none, { cancel := false, totalCount := ((regularFilesOutsideGit S).length : Int) }) ∧
        newScanner.StartScan ctx storePath fs
          = { cancel := true, totalCount := ((regularFilesOutsideGit S).length : Int) }) ∧
    ((∃ k, k < 1 + visitsOutsideGit S ∧ ctx k = true) →
      newScanner.scan ctx storePath fs = (some .Canceled, newScanner) ∧
        (newScanner.StartScan ctx storePath fs).totalCount = -1 ∧
        (newScanner.StartScan ctx storePath fs).GetTotalCount = -1) := by
  have key : ∀ s : scanner,
      ((∀ k, k < 1 + visitsOutsideGit S → ctx k = false) →
        s.scan ctx storePath fs
          = (none, { s with totalCount := ((regularFilesOutsideGit S).length : Int) })) ∧
      ((∃ k, k < 1 + visitsOutsideGit S ∧ ctx k = true) →
        s.scan ctx storePath fs = (some .Canceled, s)) := by
    intro s
    constructor
    · intro hno
      have h0 : ctx 0 = false := hno 0 (by omega)
      have h1 := (scan_walk_top ctx S 0 1).1 (fun k hk1 hk2 => hno k (by omega))
      simp only [scanner.scan, osDirFS, hS, WalkDir, walkDir, scanFn, Node.entry, h0]
      simp only [Bool.false_eq_true, if_false, Option.isSome_none, if_true]
      simp only [Nat.zero_add]
      rw [h1]
      simp
    · rintro ⟨j, hj1, hj2⟩
      by_cases h0 : ctx 0 = true
      · simp [scanner.scan, osDirFS, hS, WalkDir, walkDir, scanFn, h0]
      · have h0 : ctx 0 = false := by simpa using h0
        have hne : j ≠ 0 := by
          intro h
          subst h
          rw [h0] at hj2
          exact absurd hj2 (by decide)
        have h1 := (scan_walk_top ctx S 0 1).2 ⟨j, by omega, by omega, hj2⟩
        simp only [scanner.scan, osDirFS, hS, WalkDir, walkDir, scanFn, Node.entry, h0]
        simp only [Bool.false_eq_true, if_false, Option.isSome_none, if_true]
        simp only [Nat.zero_add]
        rcases hw : walkEntries (scanFn ctx) [] S (0, 1) with ⟨r, s1⟩
        rw [hw] at h1
        simp only at h1
        subst h1
        simp
  constructor
  · intro hno
    refine ⟨by simpa [newScanner] using (key newScanner).1 hno, ?_⟩
    simp only [scanner.StartScan]
    rw [(key _).1 hno]
  · intro hc
    refine ⟨(key newScanner).2 hc, ?_, ?_⟩
    · simp only [scanner.StartScan]
      rw [(key _).2 hc]
      rfl
    · simp only [scanner.StartScan, scanner.GetTotalCount]
      rw [(key _).2 hc]
      rfl

theorem scan_total_count_witness :
    (newScanner.scan (fun _ => false) ["store"] exampleFS
        = (none, { cancel := false, totalCount := 2 }) ∧
      newScanner.StartScan (fun _ => false) ["store"] exampleFS
        = { cancel := true, totalCount := 2 }) ∧
    (newScanner.scan (fun k => decide (k = 3)) ["store"] exampleFS = (some .Canceled, newScanner) ∧
      (newScanner.StartScan (fun k => decide (k = 3)) ["store"] exampleFS).totalCount = -1 ∧
      (newScanner.StartScan (fun k => decide (k = 3)) ["store"] exampleFS).GetTotalCount = -1) :=
  ⟨(scan_total_count (fun _ => false) ["store"] exampleFS
      (.cons ".git" (.dir (.cons "config" (.file .regular "x") .nil))
        (.cons "a.txt" (.file .regular "hello")
        (.cons "link" (.file .symlink "")
        (.cons "sub" (.dir (.cons "b.txt" (.file .regular "world") .nil))
        .nil)))) rfl).1 (fun _ _ => rfl),
   (scan_total_count (fun k => decide (k = 3)) ["store"] exampleFS
      (.cons ".git" (.dir (.cons "config" (.file .regular "x") .nil))
        (.cons "a.txt" (.file .regular "hello")
        (.cons "link" (.file .symlink "")
        (.cons "sub" (.dir (.cons "b.txt" (.file .regular "world") .nil))
        .nil)))) rfl).2 ⟨3, by decide, by decide⟩⟩


/-! ### `calcChecksums` -/

theorem addLines_nil (w : checksumWriter) : addLines [] w = w := rfl

theorem map_addLines_nil (ws : List checksumWriter) : ws.map (addLines []) = ws := by
  have h : addLines [] = id := rfl
  rw [h, List.map_id]

theorem addLines_append (a b : List (Path × String)) (w : checksumWriter) :
    addLines (a ++ b) w = addLines b (addLines a w) := by
  simp [addLines, List.foldl_append]

theorem addLines_data (files : List (Path × String)) :
    ∀ w : checksumWriter, (addLines files w).hash.data = w.hash.data := by
  induction files with
  | nil => intro w; rfl
  | cons f rest ih =>
    intro w
    simp only [addLines, List.foldl_cons] at ih ⊢
    rw [ih]
    rfl

theorem addLines_filename (files : List (Path × String)) :
    ∀ w : checksumWriter, (addLines files w).filename = w.filename := by
  induction files with
  | nil => intro w; rfl
  | cons f rest ih =>
    intro w
    simp only [addLines, List.foldl_cons] at ih ⊢
    rw [ih]
    rfl

theorem addLines_digest (files : List (Path × String)) :
    ∀ w : checksumWriter, (addLines files w).hash.digest = w.hash.digest := by
  induction files with
  | nil => intro w; rfl
  | cons f rest ih =>
    intro w
    simp only [addLines, List.foldl_cons] at ih ⊢
    rw [ih]
    rfl

theorem addLines_writer (files : List (Path × String)) :
    ∀ w : checksumWriter, (addLines files w).writer
      = w.writer ++ concatLines (manifestLines w.hash.digest files) := by
  induction files with
  | nil =>
    intro w
    simp [addLines, manifestLines, concatLines]
  | cons f rest ih =>
    intro w
    simp only [addLines, List.foldl_cons] at ih ⊢
    rw [ih]
    simp only [addLine, manifestLines, List.map_cons, concatLines, checksumLine]
    simp only [String.append_assoc]

theorem noFaults_openFails (p : Path) : noFaults.openFails p = false := rfl

theorem noFaults_createFails (p : Path) : noFaults.createFails p = false := rfl

theorem noFaults_writeFails (p : Path) (s : String) : noFaults.writeFails p s = false := rfl

theorem noFaults_flushFails (p : Path) : noFaults.flushFails p = false := rfl

theorem noFaults_closeFails (p : Path) : noFaults.closeFails p = false := rfl

theorem writeChecksums_ok (c : String) (p : String) :
    ∀ ws : List checksumWriter, (∀ w ∈ ws, w.hash.data = "") →
      writeChecksums noFaults p (ws.map (fun w => { w with hash := w.hash.Write c }))
        = (none, ws.map (addLine c p)) := by
  intro ws
  induction ws with
  | nil => intro _; rfl
  | cons w rest ih =>
    intro h
    have hw : w.hash.data = "" := h w (by simp)
    have hrest := ih (fun x hx => h x (by simp [hx]))
    simp only [List.map_cons, writeChecksums, checksumWriter.WriteChecksum, noFaults_writeFails]
    simp only [Bool.false_eq_true, if_false]
    rw [hrest]
    simp only [addLine, Hash.Sum, Hash.Write, Hash.Reset, hw, String.empty_append]
    cases w with
    | mk hash filename writer closeCalls =>
      cases hash with
      | mk typeName digest data =>
        simp only at hw
        subst hw
        rfl


theorem lookup_singleton (n : String) (es : Entries) : lookup [n] es = es.find n := by
  simp only [lookup]
  cases es.find n with
  | none => rfl
  | some d =>
    cases d with
    | file k c => simp
    | dir sub => rfl

theorem mem_names_of_mem_toList (es : Entries) (n : String) (d : Node)
    (h : (n, d) ∈ es.toList) : n ∈ es.names := by
  induction es using Entries.induction_on_entries with
  | hnil => simp [Entries.toList] at h
  | hcons m d0 rest ih =>
    simp only [Entries.toList, List.mem_cons, Prod.mk.injEq] at h
    simp only [Entries.names, List.mem_cons]
    rcases h with h | h
    · exact Or.inl h.1
    · exact Or.inr (ih h)

theorem wf_cons (n : String) (d : Node) (rest : Entries) (h : (Entries.cons n d rest).wf = true) :
    n ∉ rest.names ∧ d.wf = true ∧ rest.wf = true := by
  simp only [Entries.wf, Bool.and_eq_true, decide_eq_true_eq] at h
  exact ⟨h.1.1, h.1.2, h.2⟩

theorem find_of_mem_wf (es : Entries) (hwf : es.wf = true) (n : String) (d : Node)
    (h : (n, d) ∈ es.toList) : es.find n = some d := by
  induction es using Entries.induction_on_entries with
  | hnil => simp [Entries.toList] at h
  | hcons m d0 rest ih =>
    obtain ⟨h1, _, h3⟩ := wf_cons m d0 rest hwf
    simp only [Entries.toList, List.mem_cons, Prod.mk.injEq] at h
    rcases h with h | h
    · simp [Entries.find, h.1, h.2]
    · have hn : n ∈ rest.names := mem_names_of_mem_toList rest n d h
      have hne : ¬ m = n := fun e => h1 (e ▸ hn)
      simp only [Entries.find, hne, if_false]
      exact ih h3 h

theorem calc_walk (storePath : Path) (fs1 : FS) (S : Entries)
    (hS : lookup storePath fs1 = some (.dir S)) :
    (∀ (d : Node) (pre : Path) (nm : String) (ws : List checksumWriter),
      pre ≠ [] → (d.isDir = true → pre ≠ [".git"]) → lookup pre S = some d → d.wf = true →
      (∀ w ∈ ws, w.hash.data = "") →
      walkDir (calcChecksumsFn noFaults storePath fs1) pre nm d ws
        = (none, ws.map (addLines (d.regularFiles pre)))) ∧
    (∀ (es : Entries) (pre : Path) (ws : List checksumWriter),
      pre ≠ [] → es.wf = true →
      (∀ n d, (n, d) ∈ es.toList → lookup (pre ++ [n]) S = some d) →
      (∀ w ∈ ws, w.hash.data = "") →
      walkEntries (calcChecksumsFn noFaults storePath fs1) pre es ws
        = (none, ws.map (addLines (es.regularFiles pre)))) := by
  apply Node.induction_on_nodes
  · intro k c pre nm ws hpre _ hl _ hdata
    by_cases hk : k = FileKind.regular
    · have hread : osReadFile noFaults (pathJoin storePath pre) fs1 = .ok c := by
        simp only [osReadFile, noFaults_openFails, pathJoin]
        rw [lookup_append storePath pre fs1 S hS, hl]
        rfl
      simp only [walkDir, calcChecksumsFn, Node.entry, hk, checksumFile, hread]
      simp only [Option.isSome_none, Bool.false_eq_true, if_false, decide_True, Bool.not_true]
      rw [writeChecksums_ok c (pathString pre) ws hdata]
      simp [Node.regularFiles, addLines]
    · simp only [walkDir, calcChecksumsFn, Node.entry, hk, Node.regularFiles]
      simp [map_addLines_nil]
  · intro es ih pre nm ws hpre hgit hl hwf hdata
    have hgit := hgit rfl
    have hmem : ∀ n d, (n, d) ∈ es.toList → lookup (pre ++ [n]) S = some d := by
      intro n d hnd
      rw [lookup_append pre [n] S es hl, lookup_singleton]
      exact find_of_mem_wf es hwf n d hnd
    simp only [walkDir, calcChecksumsFn, Node.entry, hpre, hgit]
    simp only [Option.isSome_none, Bool.false_eq_true, if_false, if_true]
    rw [ih pre ws hpre hwf hmem hdata]
    rfl
  · intro pre ws _ _ _ _
    simp [walkEntries, Entries.regularFiles, map_addLines_nil]
  · intro n d rest ihd ihr pre ws hpre hwf hmem hdata
    obtain ⟨_, h2, h3⟩ := wf_cons n d rest hwf
    have hp1 : pathJoin pre [n] ≠ [] := by simp [pathJoin]
    have hp2 : pathJoin pre [n] ≠ [".git"] := by
      intro h
      have hl := congrArg List.length h
      simp [pathJoin] at hl
      exact hpre hl
    have hd := ihd (pathJoin pre [n]) n ws hp1 (fun _ => hp2)
      (hmem n d (by simp [Entries.toList])) h2 hdata
    have hdata2 : ∀ w ∈ ws.map (addLines (d.regularFiles (pathJoin pre [n]))),
        w.hash.data = "" := by
      intro w hw
      obtain ⟨w0, hw0, rfl⟩ := List.mem_map.mp hw
      rw [addLines_data]
      exact hdata w0 hw0
    have hr := ihr pre _ hpre h3
      (fun m x hx => hmem m x (by simp [Entries.toList, hx])) hdata2
    simp only [walkEntries]
    rw [hd]
    simp only
    rw [hr]
    simp [Entries.regularFiles, pathJoin, addLines_append, Function.comp_def]

theorem calc_walk_top (storePath : Path) (fs1 : FS) (S : Entries)
    (hS : lookup storePath fs1 = some (.dir S)) :
    ∀ (es : Entries) (ws : List checksumWriter),
      es.wf = true → (∀ n d, (n, d) ∈ es.toList → lookup [n] S = some d) →
      (∀ w ∈ ws, w.hash.data = "") →
      walkEntries (calcChecksumsFn noFaults storePath fs1) [] es ws
        = (none, ws.map (addLines (regularFilesOutsideGit es))) := by
  intro es
  induction es using Entries.induction_on_entries with
  | hnil =>
    intro ws _ _ _
    simp [walkEntries, regularFilesOutsideGit, map_addLines_nil]
  | hcons n d rest ihr =>
    intro ws hwf hmem hdata
    obtain ⟨_, h2, h3⟩ := wf_cons n d rest hwf
    have hd : walkDir (calcChecksumsFn noFaults storePath fs1) (pathJoin [] [n]) n d ws
        = (none, ws.map (addLines
            (if n = ".git" ∧ d.isDir = true then [] else d.regularFiles [n]))) := by
      by_cases hg : n = ".git" ∧ d.isDir = true
      · obtain ⟨hn, hdir⟩ := hg
        subst hn
        cases d with
        | file k c => simp [Node.isDir] at hdir
        | dir sub =>
          simp [walkDir, calcChecksumsFn, Node.entry, pathJoin, Node.isDir, map_addLines_nil]
      · simp only [hg, if_false]
        have hp2 : d.isDir = true → pathJoin [] [n] ≠ [".git"] := by
          intro hdir h
          simp [pathJoin] at h
          exact hg ⟨h, hdir⟩
        have := (calc_walk storePath fs1 S hS).1 d (pathJoin [] [n]) n ws (by simp [pathJoin])
          hp2 (by simpa [pathJoin] using hmem n d (by simp [Entries.toList])) h2 hdata
        simpa [pathJoin] using this
    have hdata2 : ∀ w ∈ ws.map (addLines
        (if n = ".git" ∧ d.isDir = true then [] else d.regularFiles [n])), w.hash.data = "" := by
      intro w hw
      obtain ⟨w0, hw0, rfl⟩ := List.mem_map.mp hw
      rw [addLines_data]
      exact hdata w0 hw0
    have hr := ihr _ h3 (fun m x hx => hmem m x (by simp [Entries.toList, hx])) hdata2
    simp only [walkEntries]
    rw [hd]
    simp only
    rw [hr]
    simp [regularFilesOutsideGit, addLines_append, Function.comp_def]

theorem calc_WalkDir (storePath : Path) (fs1 : FS) (S : Entries)
    (hS : lookup storePath fs1 = some (.dir S)) (hwf : S.wf = true)
    (ws : List checksumWriter) (hdata : ∀ w ∈ ws, w.hash.data = "") :
    WalkDir (osDirFS fs1 storePath) (calcChecksumsFn noFaults storePath fs1) ws
      = (none, ws.map (addLines (regularFilesOutsideGit S))) := by
  have hmem : ∀ n d, (n, d) ∈ S.toList → lookup [n] S = some d := by
    intro n d hnd
    rw [lookup_singleton]
    exact find_of_mem_wf S hwf n d hnd
  have := calc_walk_top storePath fs1 S hS S ws hwf hmem hdata
  simp [WalkDir, osDirFS, hS, walkDir, calcChecksumsFn, Node.entry, this]


theorem pathBase_concat (t : Path) (n : String) : pathBase (t ++ [n]) = n := by
  simp [pathBase]

theorem openWriters_ok (target : Path) :
    ∀ (ws : List checksumWriter) (fs0 : FS) (T0 : Entries),
      lookup target fs0 = some (.dir T0) →
      (∀ w ∈ ws, w.writer = "") →
      (∀ w ∈ ws, ∃ n, w.filename = target ++ [n]) →
      (∀ w ∈ ws, ∀ es, T0.find (pathBase w.filename) ≠ some (.dir es)) →
      ∃ fs1, openWriters noFaults ws fs0 = (none, ws, fs1) ∧
        lookup target fs1 = some (.dir
          (ws.foldl (fun t w => t.put (pathBase w.filename)
            (.file (createdKind (t.find (pathBase w.filename))) "")) T0)) ∧
        (∀ q, ¬ target <+: q → ¬ q <+: target → lookup q fs1 = lookup q fs0) := by
  intro ws
  induction ws with
  | nil =>
    intro fs0 T0 hT _ _ _
    exact ⟨fs0, rfl, hT, fun _ _ _ => rfl⟩
  | cons w rest ih =>
    intro fs0 T0 hT hwr hfn hfree
    obtain ⟨n, hn⟩ := hfn w (by simp)
    have hw : w.writer = "" := hwr w (by simp)
    have hb : pathBase w.filename = n := by rw [hn]; exact pathBase_concat target n
    have hnd : ∀ es, T0.find n ≠ some (.dir es) := by
      intro es
      have := hfree w (by simp) es
      rwa [hb] at this
    have hcreate : osCreate noFaults w.filename fs0
        = (none, modifyDir target
            (Entries.put n (.file (createdKind (T0.find n)) "")) fs0) := by
      have hl : lookup (target ++ [n]) fs0 = T0.find n := by
        rw [lookup_append target [n] fs0 T0 hT, lookup_singleton]
      rw [hn]
      simp only [osCreate, noFaults_createFails, List.getLast?_concat, List.dropLast_concat, hT,
        hl]
      cases hf : T0.find n with
      | none => simp [createdKind]
      | some d =>
        cases d with
        | file k c => simp [createdKind]
        | dir es => exact absurd hf (hnd es)
    have hT1 : lookup target (modifyDir target
        (Entries.put n (.file (createdKind (T0.find n)) "")) fs0)
        = some (.dir (T0.put n (.file (createdKind (T0.find n)) ""))) := by
      have := lookup_modifyDir_append target []
        (Entries.put n (.file (createdKind (T0.find n)) "")) fs0 T0 hT
      simpa [lookup] using this
    have hfree1 : ∀ x ∈ rest, ∀ es,
        (T0.put n (.file (createdKind (T0.find n)) "")).find (pathBase x.filename)
          ≠ some (.dir es) := by
      intro x hx es
      rw [find_put]
      by_cases hxn : pathBase x.filename = n
      · simp [hxn]
      · simp only [hxn, if_false]
        exact hfree x (by simp [hx]) es
    obtain ⟨fs1, h1, h2, h3⟩ := ih _ _ hT1 (fun x hx => hwr x (by simp [hx]))
      (fun x hx => hfn x (by simp [hx])) hfree1
    refine ⟨fs1, ?_, ?_, ?_⟩
    · simp only [openWriters, checksumWriter.Open, hcreate, h1]
      cases w with
      | mk hash filename writer closeCalls =>
        simp only at hw
        subst hw
        rfl
    · simpa [List.foldl_cons, hb] using h2
    · intro q hq1 hq2
      rw [h3 q hq1 hq2]
      exact lookup_modifyDir_disjoint _ target q fs0 hq1 hq2

theorem closeWriters_ok (target : Path) :
    ∀ (ws : List checksumWriter) (fs0 : FS) (T0 : Entries),
      lookup target fs0 = some (.dir T0) →
      (∀ w ∈ ws, ∃ n, w.filename = target ++ [n]) →
      ∃ fs1, closeWriters noFaults ws fs0 = (none, ws.map closed, fs1) ∧
        lookup target fs1 = some (.dir
          (ws.foldl (fun t w => t.modify (pathBase w.filename) (Node.append w.writer)) T0)) := by
  intro ws
  induction ws with
  | nil =>
    intro fs0 T0 hT _
    exact ⟨fs0, rfl, hT⟩
  | cons w rest ih =>
    intro fs0 T0 hT hfn
    obtain ⟨n, hn⟩ := hfn w (by simp)
    have hb : pathBase w.filename = n := by rw [hn]; exact pathBase_concat target n
    have hwrite : osWrite w.filename w.writer fs0
        = modifyDir target (Entries.modify n (Node.append w.writer)) fs0 := by
      rw [hn]
      simp only [osWrite, List.getLast?_concat, List.dropLast_concat]
    have hT1 : lookup target (modifyDir target (Entries.modify n (Node.append w.writer)) fs0)
        = some (.dir (T0.modify n (Node.append w.writer))) := by
      have := lookup_modifyDir_append target [] (Entries.modify n (Node.append w.writer)) fs0
        T0 hT
      simpa [lookup] using this
    obtain ⟨fs1, h1, h2⟩ := ih _ _ hT1 (fun x hx => hfn x (by simp [hx]))
    refine ⟨fs1, ?_, ?_⟩
    · simp only [closeWriters, checksumWriter.Close, noFaults_flushFails, noFaults_closeFails,
        hwrite]
      simp only [Bool.false_eq_true, if_false]
      rw [h1]
      rfl
    · simpa [List.foldl_cons, hb] using h2

theorem find_foldl_put (n : String) : ∀ (ws : List checksumWriter) (T0 : Entries),
    (ws.foldl (fun t w => t.put (pathBase w.filename)
        (.file (createdKind (t.find (pathBase w.filename))) "")) T0).find n
      = if n ∈ ws.map (fun w => pathBase w.filename) then
          some (.file (createdKind (T0.find n)) "")
        else T0.find n := by
  intro ws
  induction ws with
  | nil => intro T0; simp
  | cons w rest ih =>
    intro T0
    simp only [List.foldl_cons, List.map_cons, List.mem_cons]
    rw [ih, find_put]
    by_cases h2 : n = pathBase w.filename
    · subst h2
      by_cases h1 : pathBase w.filename ∈ rest.map (fun w => pathBase w.filename)
      · simp [h1, createdKind]
      · simp [h1]
    · by_cases h1 : n ∈ rest.map (fun w => pathBase w.filename)
      · simp [h1, h2]
      · simp [h1, h2]

theorem find_foldl_modify_of_not_mem (n : String) :
    ∀ (ws : List checksumWriter) (T0 : Entries),
      n ∉ ws.map (fun w => pathBase w.filename) →
      (ws.foldl (fun t w => t.modify (pathBase w.filename) (Node.append w.writer)) T0).find n
        = T0.find n := by
  intro ws
  induction ws with
  | nil => intro T0 _; rfl
  | cons w rest ih =>
    intro T0 h
    simp only [List.map_cons, List.mem_cons, not_or] at h
    simp only [List.foldl_cons]
    rw [ih _ h.2, find_modify]
    simp [h.1]

theorem find_foldl_modify (ws : List checksumWriter) :
    ∀ (T0 : Entries), (ws.map (fun w => pathBase w.filename)).Nodup → ∀ w ∈ ws,
      (ws.foldl (fun t w => t.modify (pathBase w.filename) (Node.append w.writer)) T0).find
          (pathBase w.filename)
        = (T0.find (pathBase w.filename)).map (Node.append w.writer) := by
  induction ws with
  | nil => intro T0 _ w hw; simp at hw
  | cons w0 rest ih =>
    intro T0 hnd w hw
    simp only [List.map_cons, List.nodup_cons] at hnd
    simp only [List.foldl_cons]
    rcases List.mem_cons.mp hw with h | h
    · subst h
      rw [find_foldl_modify_of_not_mem _ rest _ hnd.1, find_modify]
      simp
    · have hne : pathBase w.filename ≠ pathBase w0.filename := by
        intro e
        apply hnd.1
        rw [← e]
        exact List.mem_map.mpr ⟨w, h, rfl⟩
      rw [ih _ hnd.2 w h, find_modify]
      simp [hne]


theorem writerFor_writer (L : CryptoLib) (t : Path) (h : cryptoHash) :
    (writerFor L t h).writer = "" := by
  unfold writerFor
  split_ifs <;> rfl

theorem writerFor_data (L : CryptoLib) (t : Path) (h : cryptoHash) :
    (writerFor L t h).hash.data = "" := by
  unfold writerFor
  split_ifs <;> rfl

/-- C1 (counterexample): with the target directory `store/out` inside the source directory
`store`, whose tree holds the single regular file `a.txt`, `calcChecksums` with the writer
for MD5 succeeds without any failing operation, and the manifest `MD5SUMS` ends with two
lines: the second one is for the manifest itself, which the walk found after the writer had
created it. -/
theorem calcChecksums_nested_target_extra_line :
    lookup ["store"] nestedFS
      = some (.dir (.cons "a.txt" (.file .regular "hello") (.cons "out" (.dir .nil) .nil))) ∧
    regularFilesOutsideGit
        (.cons "a.txt" (.file .regular "hello") (.cons "out" (.dir .nil) .nil))
      = [(["a.txt"], "hello")] ∧
    createWriters toyLib (createConfig nestedOptions)
      = .ok [newChecksumWriter ["store", "out"] (md5New toyLib)] ∧
    (calcChecksums noFaults ["store"] [newChecksumWriter ["store", "out"] (md5New toyLib)]
        nestedFS).1 = none ∧
    lookup ["store", "out", "MD5SUMS"]
        (calcChecksums noFaults ["store"] [newChecksumWriter ["store", "out"] (md5New toyLib)]
          nestedFS).2.2
      = some (.file .regular "68656c6c6f *a.txt\n *out/MD5SUMS\n") := by
  refine ⟨rfl, by decide, rfl, by decide, rfl⟩

/-- C1 (amended): let the requested algorithms be distinct and supported, the source
directory hold the well-formed tree `S`, the target directory exist, hold no directory under
the name of a manifest, and neither lie inside the source directory nor be the source
directory.  Then, when no operation fails, `createWriters` and `calcChecksums` succeed, and
afterwards the manifest of every requested algorithm is a file (a regular file, unless an
entry of another type was there before) whose content is the concatenation of one line for
each regular file of `S` (the content of the top-level `.git` directory and entries that are
not regular files left out), in walk order, the line of a file being made of the digest of
the content of that file alone and of its path relative to the source root.  All manifests
have as many lines as there are such files, and they are empty when there is none. -/
theorem calcChecksums_manifests (L : CryptoLib) (cfg : ChecksumCalculatorConfig)
    (storePath : Path) (fs : FS) (S T : Entries)
    (hsup : ∀ h ∈ cfg.hashes, supported h) (hnd : cfg.hashes.Nodup)
    (hS : lookup storePath fs = some (.dir S)) (hwf : S.wf = true)
    (hT : lookup cfg.targetDirectoryPath fs = some (.dir T))
    (hfree : ∀ h ∈ cfg.hashes, ∀ es, T.find (manifestName h) ≠ some (.dir es))
    (hd1 : ¬ storePath <+: cfg.targetDirectoryPath) :
    ∃ ws ws1 fs1, createWriters L cfg = .ok ws ∧
      calcChecksums noFaults storePath ws fs = (none, ws1, fs1) ∧
      (∀ h ∈ cfg.hashes,
        lookup (pathJoin cfg.targetDirectoryPath [manifestName h]) fs1
          = some (.file (createdKind (T.find (manifestName h)))
              (concatLines (manifestLines (digestOf L h) (regularFilesOutsideGit S))))) ∧
      (∀ h, (manifestLines (digestOf L h) (regularFilesOutsideGit S)).length
          = (regularFilesOutsideGit S).length) ∧
      (regularFilesOutsideGit S = [] → ∀ h ∈ cfg.hashes,
        lookup (pathJoin cfg.targetDirectoryPath [manifestName h]) fs1
          = some (.file (createdKind (T.find (manifestName h))) "")) := by
  have hfn : ∀ w ∈ cfg.hashes.map (writerFor L cfg.targetDirectoryPath),
      ∃ n, w.filename = cfg.targetDirectoryPath ++ [n] := by
    intro w hw
    obtain ⟨h, _, rfl⟩ := List.mem_map.mp hw
    exact ⟨manifestName h, writerFor_filename L _ h⟩
  have hbase : ∀ h, pathBase (writerFor L cfg.targetDirectoryPath h).filename = manifestName h := by
    intro h
    rw [writerFor_filename]
    exact pathBase_concat _ _
  -- the writers are opened
  obtain ⟨fsA, hopen, hTA, hframe⟩ := openWriters_ok cfg.targetDirectoryPath
    (cfg.hashes.map (writerFor L cfg.targetDirectoryPath)) fs T hT
    (by
      intro w hw
      obtain ⟨h, _, rfl⟩ := List.mem_map.mp hw
      exact writerFor_writer L _ h)
    hfn
    (by
      intro w hw es
      obtain ⟨h, hh, rfl⟩ := List.mem_map.mp hw
      rw [hbase]
      exact hfree h hh es)
  have hSA : lookup storePath fsA = some (.dir S) := by
    by_cases hd2 : cfg.targetDirectoryPath <+: storePath
    · -- the source directory lies inside the target directory
      obtain ⟨r, hr⟩ := hd2
      cases r with
      | nil =>
        exfalso
        apply hd1
        rw [← hr]
        simp
      | cons m r1 =>
        have h0 : lookup (m :: r1) T = some (.dir S) := by
          rw [← lookup_append cfg.targetDirectoryPath (m :: r1) fs T hT, hr]
          exact hS
        have hm : m ∉ (cfg.hashes.map (writerFor L cfg.targetDirectoryPath)).map
            (fun w => pathBase w.filename) := by
          intro hmem
          simp only [List.map_map, Function.comp_def, hbase] at hmem
          obtain ⟨h, hh, rfl⟩ := List.mem_map.mp hmem
          simp only [lookup] at h0
          cases hf : T.find (manifestName h) with
          | none => simp [hf] at h0
          | some d =>
            cases d with
            | file k c =>
              simp only [hf] at h0
              split at h0 <;> simp at h0
            | dir es => exact hfree h hh es hf
        rw [← hr, lookup_append cfg.targetDirectoryPath (m :: r1) fsA _ hTA]
        simp only [lookup, find_foldl_put, hm, if_false]
        simpa only [lookup] using h0
    · rw [hframe storePath hd2 hd1]
      exact hS
  -- the walk
  have hwalk := calc_WalkDir storePath fsA S hSA hwf
    (cfg.hashes.map (writerFor L cfg.targetDirectoryPath))
    (by
      intro w hw
      obtain ⟨h, _, rfl⟩ := List.mem_map.mp hw
      exact writerFor_data L _ h)
  -- the writers are closed
  have hfn2 : ∀ w ∈ (cfg.hashes.map (writerFor L cfg.targetDirectoryPath)).map
      (addLines (regularFilesOutsideGit S)), ∃ n, w.filename = cfg.targetDirectoryPath ++ [n] := by
    intro w hw
    obtain ⟨w0, hw0, rfl⟩ := List.mem_map.mp hw
    rw [addLines_filename]
    exact hfn w0 hw0
  obtain ⟨fsB, hclose, hTB⟩ := closeWriters_ok cfg.targetDirectoryPath _ fsA _ hTA hfn2
  have hcalc : calcChecksums noFaults storePath
      (cfg.hashes.map (writerFor L cfg.targetDirectoryPath)) fs
      = (none, ((cfg.hashes.map (writerFor L cfg.targetDirectoryPath)).map
          (addLines (regularFilesOutsideGit S))).map closed, fsB) := by
    simp only [calcChecksums, hopen, hwalk, hclose]
  have hnames : ((cfg.hashes.map (writerFor L cfg.targetDirectoryPath)).map
      (addLines (regularFilesOutsideGit S))).map (fun w => pathBase w.filename)
      = cfg.hashes.map manifestName := by
    simp [List.map_map, Function.comp_def, addLines_filename, hbase]
  have hnodup : (cfg.hashes.map manifestName).Nodup := by
    apply List.Nodup.map_on _ hnd
    intro x hx y hy hxy
    by_contra hne
    exact manifestName_injective x y (hsup x hx) (hsup y hy) hne hxy
  have hcontent : ∀ h ∈ cfg.hashes,
      lookup (pathJoin cfg.targetDirectoryPath [manifestName h]) fsB
        = some (.file (createdKind (T.find (manifestName h)))
            (concatLines (manifestLines (digestOf L h) (regularFilesOutsideGit S)))) := by
    intro h hh
    have hmem : addLines (regularFilesOutsideGit S) (writerFor L cfg.targetDirectoryPath h)
        ∈ (cfg.hashes.map (writerFor L cfg.targetDirectoryPath)).map
          (addLines (regularFilesOutsideGit S)) :=
      List.mem_map.mpr ⟨_, List.mem_map.mpr ⟨h, hh, rfl⟩, rfl⟩
    have hfind := find_foldl_modify _
      ((cfg.hashes.map (writerFor L cfg.targetDirectoryPath)).foldl
        (fun t w => t.put (pathBase w.filename)
          (.file (createdKind (t.find (pathBase w.filename))) "")) T)
      (by rw [hnames]; exact hnodup) _ hmem
    rw [addLines_filename, hbase, find_foldl_put] at hfind
    have hin : manifestName h ∈ (cfg.hashes.map (writerFor L cfg.targetDirectoryPath)).map
        (fun w => pathBase w.filename) := by
      simp only [List.map_map, Function.comp_def, hbase]
      exact List.mem_map.mpr ⟨h, hh, rfl⟩
    simp only [hin, if_true, Option.map_some', Node.append, addLines_writer, writerFor_writer,
      writerFor_digest, String.empty_append] at hfind
    unfold pathJoin
    rw [lookup_append _ [manifestName h] fsB _ hTB, lookup_singleton]
    exact hfind
  refine ⟨_, _, fsB, createWriters_ok L cfg hsup, hcalc, hcontent, ?_, ?_⟩
  · intro h
    simp [manifestLines]
  · intro hempty h hh
    have := hcontent h hh
    rw [hempty] at this
    exact this

theorem calcChecksums_manifests_witness :
    ∃ ws ws1 fs1, createWriters toyLib (createConfig twoHashOptions) = .ok ws ∧
      calcChecksums noFaults ["store"] ws exampleFS = (none, ws1, fs1) ∧
      lookup ["repo", "MD5SUMS"] fs1
        = some (.file .regular "68656c6c6f *a.txt\n776f726c64 *sub/b.txt\n") ∧
      lookup ["repo", "SHA256SUMS"] fs1
        = some (.file .regular "68656c6c6f00 *a.txt\n776f726c6400 *sub/b.txt\n") := by
  obtain ⟨ws, ws1, fs1, h1, h2, h3, _, _⟩ :=
    calcChecksums_manifests toyLib (createConfig twoHashOptions) ["store"] exampleFS
      (.cons ".git" (.dir (.cons "config" (.file .regular "x") .nil))
        (.cons "a.txt" (.file .regular "hello")
        (.cons "link" (.file .symlink "")
        (.cons "sub" (.dir (.cons "b.txt" (.file .regular "world") .nil))
        .nil))))
      .nil (by decide) (by decide) rfl (by decide) rfl
      (by intro h _ es; simp [Entries.find]) (by decide)
  exact ⟨ws, ws1, fs1, h1, h2, h3 cryptoMD5 (by decide), h3 cryptoSHA256 (by decide)⟩


/-! ### `PrintStats` -/

theorem round_natCast (lib : FloatLib) (n : ℕ) (hn : n < 2 ^ 24) :
    lib.round (n : ℚ) = (n : ℚ) := by
  have := lib.round_exact n 0 hn (by norm_num) (by norm_num)
  simpa using this

theorem ofInt_finite (lib : FloatLib) (n : Int) :
    float32.ofInt lib n = .finite (decide (n < 0)) (lib.round (n.natAbs : ℚ)) := rfl

theorem round_natAbs_ne_zero (lib : FloatLib) (n : Int) (hn : n ≠ 0) :
    lib.round (n.natAbs : ℚ) ≠ 0 := by
  have h1 : (1 : ℚ) ≤ (n.natAbs : ℚ) := by
    have : 1 ≤ n.natAbs := Nat.one_le_iff_ne_zero.mpr (Int.natAbs_ne_zero.mpr hn)
    exact_mod_cast this
  have h2 := lib.round_one_le _ h1
  intro h
  rw [h] at h2
  norm_num at h2

theorem percentage_finite (lib : FloatLib) (total actualCount : Int) (ht : total ≠ 0) :
    percentage lib total actualCount
      = .finite (xor (decide (total < 0)) (decide (actualCount < 0)))
          (lib.round (lib.round (100 / lib.round (total.natAbs : ℚ))
            * lib.round (actualCount.natAbs : ℚ))) := by
  simp only [percentage, float32.ofInt, float32.div, round_natAbs_ne_zero lib total ht,
    if_false, float32.mul, Bool.false_xor]

theorem percentage_exact (lib : FloatLib) (total actualCount : Int) (ht : total ≠ 0)
    (m1 m2 : ℕ) (k1 k2 : ℤ)
    (hT : total.natAbs < 2 ^ 24) (hP : actualCount.natAbs < 2 ^ 24)
    (hm1 : m1 < 2 ^ 24) (hk1 : -149 ≤ k1) (hk1' : k1 ≤ 104)
    (hm2 : m2 < 2 ^ 24) (hk2 : -149 ≤ k2) (hk2' : k2 ≤ 104)
    (h1 : (100 : ℚ) / (total.natAbs : ℚ) = (m1 : ℚ) * 2 ^ k1)
    (h2 : (100 : ℚ) / (total.natAbs : ℚ) * (actualCount.natAbs : ℚ) = (m2 : ℚ) * 2 ^ k2) :
    percentage lib total actualCount
      = .finite (xor (decide (total < 0)) (decide (actualCount < 0)))
          (100 / (total.natAbs : ℚ) * (actualCount.natAbs : ℚ)) := by
  rw [percentage_finite lib total actualCount ht, round_natCast lib _ hT,
    round_natCast lib _ hP]
  have e1 : lib.round (100 / (total.natAbs : ℚ)) = 100 / (total.natAbs : ℚ) := by
    rw [h1]
    exact lib.round_exact m1 k1 hm1 hk1 hk1'
  rw [e1]
  have e2 : lib.round (100 / (total.natAbs : ℚ) * (actualCount.natAbs : ℚ))
      = 100 / (total.natAbs : ℚ) * (actualCount.natAbs : ℚ) := by
    rw [h2]
    exact lib.round_exact m2 k2 hm2 hk2 hk2'
  rw [e2]

theorem fmt2f_fifty : fmt2f (.finite false 50) = "50.00" := by
  have h : roundHalfEven ((50 : ℚ) * 100) = 5000 := by
    norm_num [roundHalfEven]
  simp only [fmt2f, h]
  decide


/-- C9 (counterexample): after a completed scan of an empty source directory the scanner is
not scanning and its total count is 0; with nothing processed, the percentage of `PrintStats`
is NaN and the rendered status is `0/0 (NaN%)`, where no value 100 × P / T is shown. -/
theorem PrintStats_zero_total_renders_nan :
    (newScanner.StartScan (fun _ => false) ["store"] emptyStoreFS).asTotalCountScanner.IsScanning
      = false ∧
    (newScanner.StartScan (fun _ => false) ["store"]
        emptyStoreFS).asTotalCountScanner.GetTotalCount = 0 ∧
    stats.PrintStats exactFloatLib
        { actualCount := 0
          scanner :=
            (newScanner.StartScan (fun _ => false) ["store"] emptyStoreFS).asTotalCountScanner }
      = "\x1b[1A\x1b[Kstatus: 0/0 (NaN%)" := by
  have h : newScanner.StartScan (fun _ => false) ["store"] emptyStoreFS
      = { cancel := true, totalCount := 0 } := by decide
  refine ⟨by rw [h]; decide, by rw [h]; decide, ?_⟩
  rw [h]
  simp only [stats.PrintStats, scanner.asTotalCountScanner, scanner.IsScanning,
    scanner.GetTotalCount, percentage, float32.ofInt, float32.div, float32.mul, exactFloatLib,
    fmt2f, fmtInt]
  simp
  decide

/-- C9 (amended): `PrintStats` renders the unknown-total form `status: P/?, scan in
progress...` when the scanner reports that it is still scanning.  Otherwise, when the total
count `T` is not 0, it renders `status: P/T (X%)`, where `X` is the finite float32 value of
`100 / T × P`, each operation rounded to float32, shown with two decimals; `X` is the exact
`100 × P / T` when the counts, the quotient and the product are float32 values.  With `T = 10`
and `P = 5` the rendered status is `5/10 (50.00%)`. -/
theorem PrintStats_forms (lib : FloatLib) (s : stats) :
    (s.scanner.IsScanning = true →
      s.PrintStats lib
        = "\x1b[1A\x1b[Kstatus: " ++ fmtInt s.actualCount ++ "/?, scan in progress...") ∧
    (s.scanner.IsScanning = false → s.scanner.GetTotalCount ≠ 0 →
      s.PrintStats lib
        = "\x1b[1A\x1b[Kstatus: " ++ fmtInt s.actualCount ++ "/" ++
            fmtInt s.scanner.GetTotalCount ++ " (" ++
            fmt2f (.finite
              (xor (decide (s.scanner.GetTotalCount < 0)) (decide (s.actualCount < 0)))
              (lib.round (lib.round (100 / lib.round (s.scanner.GetTotalCount.natAbs : ℚ))
                * lib.round (s.actualCount.natAbs : ℚ)))) ++ "%)") ∧
    (s.scanner.IsScanning = false → s.scanner.GetTotalCount ≠ 0 →
      ∀ (m1 m2 : ℕ) (k1 k2 : ℤ),
        s.scanner.GetTotalCount.natAbs < 2 ^ 24 → s.actualCount.natAbs < 2 ^ 24 →
        m1 < 2 ^ 24 → -149 ≤ k1 → k1 ≤ 104 → m2 < 2 ^ 24 → -149 ≤ k2 → k2 ≤ 104 →
        (100 : ℚ) / (s.scanner.GetTotalCount.natAbs : ℚ) = (m1 : ℚ) * 2 ^ k1 →
        (100 : ℚ) / (s.scanner.GetTotalCount.natAbs : ℚ) * (s.actualCount.natAbs : ℚ)
          = (m2 : ℚ) * 2 ^ k2 →
        s.PrintStats lib
          = "\x1b[1A\x1b[Kstatus: " ++ fmtInt s.actualCount ++ "/" ++
              fmtInt s.scanner.GetTotalCount ++ " (" ++
              fmt2f (.finite
                (xor (decide (s.scanner.GetTotalCount < 0)) (decide (s.actualCount < 0)))
                (100 / (s.scanner.GetTotalCount.natAbs : ℚ) * (s.actualCount.natAbs : ℚ))) ++
              "%)") ∧
    stats.PrintStats lib
        { actualCount := 5, scanner := { IsScanning := false, GetTotalCount := 10 } }
      = "\x1b[1A\x1b[Kstatus: 5/10 (50.00%)" := by
  refine ⟨?_, ?_, ?_, ?_⟩
  · intro h
    simp only [stats.PrintStats, h, if_true]
  · intro h ht
    simp only [stats.PrintStats, h, Bool.false_eq_true, if_false,
      percentage_finite lib _ _ ht]
  · intro h ht m1 m2 k1 k2 hT hP hm1 hk1 hk1' hm2 hk2 hk2' h1 h2
    simp only [stats.PrintStats, h, Bool.false_eq_true, if_false,
      percentage_exact lib _ _ ht m1 m2 k1 k2 hT hP hm1 hk1 hk1' hm2 hk2 hk2' h1 h2]
  · have hp : percentage lib 10 5 = .finite false 50 := by
      rw [percentage_exact lib 10 5 (by decide) 10 50 0 0 (by decide) (by decide)
        (by norm_num) (by norm_num) (by norm_num) (by norm_num) (by norm_num) (by norm_num)
        (by norm_num) (by norm_num)]
      norm_num
    simp only [stats.PrintStats, Bool.false_eq_true, if_false, hp, fmt2f_fifty]
    decide

theorem PrintStats_forms_witness :
    stats.PrintStats exactFloatLib
        { actualCount := 7, scanner := { IsScanning := true, GetTotalCount := -1 } }
      = "\x1b[1A\x1b[Kstatus: 7/?, scan in progress..." ∧
    stats.PrintStats exactFloatLib
        { actualCount := 5, scanner := { IsScanning := false, GetTotalCount := 10 } }
      = "\x1b[1A\x1b[Kstatus: 5/10 (50.00%)" :=
  ⟨by
    have h := (PrintStats_forms exactFloatLib
      { actualCount := 7, scanner := { IsScanning := true, GetTotalCount := -1 } }).1 rfl
    rw [h]
    decide,
   (PrintStats_forms exactFloatLib
      { actualCount := 7, scanner := { IsScanning := true, GetTotalCount := -1 } }).2.2.2⟩

end Multisum
